import Mathlib

/-!
Verification of the date-indexed journal merge engine.

This file gives a shallow embedding of the core of the voice-journal
application — the text-processing merge/overwrite engine of
`client/src/utils/textProcessor.ts` and the date normalizer of
`server/services/openaiService.ts` — and proves (or refutes) the frozen
specification claims about them.

Strings are modelled as `List Char`.  JavaScript `String.prototype.trim`
is modelled over the ASCII whitespace characters space, tab, carriage
return and newline (`Char.isWhitespace`), which agrees with JavaScript on
every character the journal format uses.  JavaScript `split('\n')` /
`join('\n')` are modelled by `splitNL` / `joinNL`.  The ambient current
date (`new Date()`) is made an explicit parameter: a `JDate` record for
the normalizer, and the rendered `M.D.YYYY` header string for the text
processor (which only ever consults the date through `formatDateHeader`).
-/

abbrev Str := List Char

def isWS (c : Char) : Bool := c.isWhitespace

/-- JavaScript `s.trim()`. -/
def trimStr (s : Str) : Str :=
  ((s.dropWhile isWS).reverse.dropWhile isWS).reverse

/-- JavaScript `s.split('\n')`.  On the empty string it yields `[""]`. -/
def splitNL : Str → List Str
  | [] => [[]]
  | c :: cs =>
    if c = '\n' then [] :: splitNL cs
    else
      match splitNL cs with
      | [] => [[c]]
      | h :: t => (c :: h) :: t

/-- JavaScript `lines.join('\n')`. -/
def joinNL : List Str → Str
  | [] => []
  | [l] => l
  | l :: ls => l ++ '\n' :: joinNL ls

/-- Index of the first element satisfying `p` (JavaScript `findIndex`,
with `none` for `-1`). -/
def firstIdx (p : α → Bool) : List α → Option Nat
  | [] => none
  | a :: as => if p a then some 0 else (firstIdx p as).map (· + 1)

/-- JavaScript `s.includes(pat)`. -/
def containsSub (pat : Str) : Str → Bool
  | [] => pat.isEmpty
  | s@(_ :: cs) => pat.isPrefixOf s || containsSub pat cs

/-- The canonical-date-key test `/^\d{1,2}\.\d{1,2}\.\d{4}$/.test s`. -/
def isHeaderCore (s : Str) : Bool :=
  let a := s.takeWhile Char.isDigit
  match s.drop a.length with
  | '.' :: r2 =>
    let b := r2.takeWhile Char.isDigit
    match r2.drop b.length with
    | '.' :: r4 =>
      decide (1 ≤ a.length) && decide (a.length ≤ 2) &&
      decide (1 ≤ b.length) && decide (b.length ≤ 2) &&
      r4.all Char.isDigit && decide (r4.length = 4)
    | _ => false
  | _ => false

/-- `line.startsWith('- ')`. -/
def isBulletStart (s : Str) : Bool := ("- ".toList).isPrefixOf s

/-! ## Calendar model of the JavaScript `Date` arithmetic used -/

structure JDate where
  y : Nat
  m : Nat
  d : Nat
deriving DecidableEq, Repr

def isLeap (y : Nat) : Bool := y % 4 = 0 && (y % 100 ≠ 0 || y % 400 = 0)

def daysInMonth (y m : Nat) : Nat :=
  if m = 2 then (if isLeap y then 29 else 28)
  else if m = 4 ∨ m = 6 ∨ m = 9 ∨ m = 11 then 30
  else 31

def ValidDate (dt : JDate) : Prop :=
  1 ≤ dt.m ∧ dt.m ≤ 12 ∧ 1 ≤ dt.d ∧ dt.d ≤ daysInMonth dt.y dt.m ∧ 1 ≤ dt.y

instance : DecidablePred ValidDate := fun dt => by unfold ValidDate; infer_instance

/-- One calendar day earlier (what `setDate(getDate() - 1)` computes). -/
def subDay1 (dt : JDate) : JDate :=
  if 2 ≤ dt.d then ⟨dt.y, dt.m, dt.d - 1⟩
  else if 2 ≤ dt.m then ⟨dt.y, dt.m - 1, daysInMonth dt.y (dt.m - 1)⟩
  else ⟨dt.y - 1, 12, 31⟩

/-- `n` calendar days earlier (what `setDate(getDate() - n)` computes). -/
def subDays (dt : JDate) : Nat → JDate
  | 0 => dt
  | n + 1 => subDay1 (subDays dt n)

/-- JavaScript `Date.prototype.getDay` (0 = Sunday … 6 = Saturday) for the
proleptic Gregorian calendar, via Zeller's congruence. -/
def getDayJS (dt : JDate) : Nat :=
  let y := if dt.m ≤ 2 then dt.y - 1 else dt.y
  let m := if dt.m ≤ 2 then dt.m + 12 else dt.m
  let K := y % 100
  let J := y / 100
  (dt.d + (13 * (m + 1)) / 5 + K + K / 4 + J / 4 + 5 * J + 6) % 7

/-- Fuel-driven digit renderer (structural recursion on the fuel, so that
concrete values reduce); the fuel is always sufficient when it is `≥ n`. -/
def natToDigitsF : Nat → Nat → Str
  | 0, n => [Char.ofNat (48 + n)]
  | f + 1, n =>
    if n < 10 then [Char.ofNat (48 + n)]
    else natToDigitsF f (n / 10) ++ [Char.ofNat (48 + n % 10)]

/-- Decimal digits of `n`, exactly as JavaScript template interpolation
of a non-negative integer renders it (no leading zeros; `0 ↦ "0"`). -/
def natToDigits (n : Nat) : Str := natToDigitsF n n

/-- JavaScript `parseInt` on a string of decimal digits. -/
def parseIntDigits (s : Str) : Nat := s.foldl (fun a c => 10 * a + (c.toNat - 48)) 0

/-- `formatDateHeader` applied to an explicit date:
``${m}.${d}.${y}`` with `getMonth() + 1` already folded into `m`. -/
def renderDate (dt : JDate) : Str :=
  natToDigits dt.m ++ '.' :: natToDigits dt.d ++ '.' :: natToDigits dt.y

/-! ## `OpenAIService.normalizeDateFormat` -/

def digitRun (s : Str) : Str := s.takeWhile Char.isDigit

def isSep (c : Char) : Bool := c = '/' || c = '-'

/-- `dateStr.match(/^(\d{1,2})[\/\-](\d{1,2})[\/\-](\d{4})$/)`, returning
the three captured digit groups. -/
def fullDateMatch (s : Str) : Option (Str × Str × Str) :=
  let a := digitRun s
  if a.length < 1 ∨ 2 < a.length then none else
  match s.drop a.length with
  | c1 :: r1 =>
    if !isSep c1 then none else
    let b := digitRun r1
    if b.length < 1 ∨ 2 < b.length then none else
    match r1.drop b.length with
    | c2 :: r2 =>
      if !isSep c2 then none else
      if (digitRun r2).length = 4 ∧ r2.length = 4 then some (a, b, r2) else none
    | [] => none
  | [] => none

/-- `dateStr.match(/^(\d{1,2})[\/\-](\d{1,2})$/)`. -/
def shortDateMatch (s : Str) : Option (Str × Str) :=
  let a := digitRun s
  if a.length < 1 ∨ 2 < a.length then none else
  match s.drop a.length with
  | c1 :: r1 =>
    if !isSep c1 then none else
    let b := digitRun r1
    if b.length < 1 ∨ 2 < b.length then none else
    if r1.length = b.length then some (a, b) else none
  | [] => none

/-- JavaScript `\w`. -/
def isWordChar (c : Char) : Bool := c.isAlpha || c.isDigit || c = '_'

/-- Given the maximal `\w` run starting at the match position, the text
captured by a greedy `(\w+day)`: the longest prefix of the run that ends
in `"day"` and has at least one preceding word character. -/
def wdayGroup (run : Str) : Option Str :=
  ((List.range (run.length + 1)).reverse.find? (fun r =>
    decide (4 ≤ r) && ((run.take r).drop (r - 3) == "day".toList))).map
    (fun r => run.take r)

/-- One attempt of `/(?:last\s+)?(\w+day)/` at a fixed start position. -/
def tryDayAt (s : Str) : Option Str :=
  let withLast : Option Str :=
    if ("last".toList).isPrefixOf s then
      let rest := s.drop 4
      let w := rest.takeWhile isWS
      if w.isEmpty then none
      else wdayGroup ((rest.drop w.length).takeWhile isWordChar)
    else none
  match withLast with
  | some g => some g
  | none => wdayGroup (s.takeWhile isWordChar)

/-- Leftmost match of `/(?:last\s+)?(\w+day)/`, returning capture 1. -/
def dayNameMatch : Str → Option Str
  | [] => none
  | s@(_ :: cs) =>
    match tryDayAt s with
    | some g => some g
    | none => dayNameMatch cs

def dayNamesL : List Str :=
  ["sunday".toList, "monday".toList, "tuesday".toList, "wednesday".toList,
   "thursday".toList, "friday".toList, "saturday".toList]

def monthNamesL : List Str :=
  ["january".toList, "february".toList, "march".toList, "april".toList,
   "may".toList, "june".toList, "july".toList, "august".toList,
   "september".toList, "october".toList, "november".toList, "december".toList]

/-- `names.findIndex(n => n.startsWith(g))`. -/
def prefixIdx (g : Str) (names : List Str) : Option Nat :=
  firstIdx (fun n => g.isPrefixOf n) names

/-- One attempt of `/(\w+)\s+(\d{1,2})(?:st|nd|rd|th)?(?:\s+(\d{4}))?/` at
a fixed start position: `(capture 1, capture 2, capture 3?)`. -/
def tryMonthAt (s : Str) : Option (Str × Str × Option Str) :=
  let w := s.takeWhile isWordChar
  if w.isEmpty then none else
  let r1 := s.drop w.length
  let sp := r1.takeWhile isWS
  if sp.isEmpty then none else
  let r2 := r1.drop sp.length
  let dg := r2.takeWhile Char.isDigit
  if dg.isEmpty then none else
  let day := dg.take 2
  let r3 := r2.drop day.length
  let r4 :=
    if ("st".toList).isPrefixOf r3 ∨ ("nd".toList).isPrefixOf r3 ∨
       ("rd".toList).isPrefixOf r3 ∨ ("th".toList).isPrefixOf r3
    then r3.drop 2 else r3
  let yr : Option Str :=
    let sp2 := r4.takeWhile isWS
    if sp2.isEmpty then none else
    let yg := (r4.drop sp2.length).takeWhile Char.isDigit
    if 4 ≤ yg.length then some (yg.take 4) else none
  some (w, day, yr)

/-- Leftmost match of the month-name pattern. -/
def monthMatchLM : Str → Option (Str × Str × Option Str)
  | [] => none
  | s@(_ :: cs) =>
    match tryMonthAt s with
    | some m => some m
    | none => monthMatchLM cs

/-- `OpenAIService.normalizeDateFormat`, with the ambient current date as
an explicit `today` parameter.  `none` models the `null` return. -/
def normalizeDateFormat (today : JDate) (dateStr : Str) : Option Str :=
  if isHeaderCore dateStr then some dateStr else
  match fullDateMatch dateStr with
  | some (a, b, c) =>
    some (natToDigits (parseIntDigits a) ++ '.' :: natToDigits (parseIntDigits b) ++ '.' :: c)
  | none =>
  match shortDateMatch dateStr with
  | some (a, b) =>
    some (natToDigits (parseIntDigits a) ++ '.' :: natToDigits (parseIntDigits b) ++ '.' ::
      natToDigits today.y)
  | none =>
  let lower := dateStr.map Char.toLower
  if containsSub ("today".toList) lower then some (renderDate today) else
  if containsSub ("yesterday".toList) lower then some (renderDate (subDays today 1)) else
  let viaDay : Option Str :=
    match dayNameMatch lower with
    | some g =>
      match prefixIdx g dayNamesL with
      | some i =>
        let c := getDayJS today
        let base := if c ≤ i then c + 7 - i else c - i
        let back := if containsSub ("last".toList) lower then base + 7 else base
        some (renderDate (subDays today back))
      | none => none
    | none => none
  match viaDay with
  | some k => some k
  | none =>
  match monthMatchLM lower with
  | some (g, dayS, yrS) =>
    match prefixIdx g monthNamesL with
    | some mi =>
      let yr := match yrS with | some ys => parseIntDigits ys | none => today.y
      some (natToDigits (mi + 1) ++ '.' :: natToDigits (parseIntDigits dayS) ++ '.' ::
        natToDigits yr)
    | none => none
  | none => none

/-! ## `TextProcessor.cleanBullet` and its prefix table -/

inductive PTok where
  | lit (c : Char)
  | ws
deriving DecidableEq

def litToks (w : Str) : List PTok := w.map PTok.lit

/-- Match an anchored case-insensitive token pattern (a literal-and-`\s+`
regex such as `/^then\s+I\s+/i`) against the front of `s`, returning the
remainder on success. -/
def matchPre : List PTok → Str → Option Str
  | [], s => some s
  | PTok.lit c :: ps, x :: xs => if x.toLower = c.toLower then matchPre ps xs else none
  | PTok.lit _ :: _, [] => none
  | PTok.ws :: ps, s =>
    let w := s.takeWhile isWS
    if w.isEmpty then none else matchPre ps (s.drop w.length)

/-- `TextProcessor.PREFIXES_TO_REMOVE`, in source order. -/
def PREFIXES_TO_REMOVE : List (List PTok) :=
  [ litToks ("i".toList) ++ [PTok.ws],
    litToks ("i'm".toList) ++ [PTok.ws],
    litToks ("i".toList) ++ [PTok.ws] ++ litToks ("went".toList) ++ [PTok.ws] ++
      litToks ("and".toList) ++ [PTok.ws],
    litToks ("i".toList) ++ [PTok.ws] ++ litToks ("had".toList) ++ [PTok.ws],
    litToks ("i".toList) ++ [PTok.ws] ++ litToks ("was".toList) ++ [PTok.ws],
    litToks ("i".toList) ++ [PTok.ws] ++ litToks ("did".toList) ++ [PTok.ws],
    litToks ("then".toList) ++ [PTok.ws] ++ litToks ("i".toList) ++ [PTok.ws],
    litToks ("and".toList) ++ [PTok.ws] ++ litToks ("i".toList) ++ [PTok.ws],
    litToks ("so".toList) ++ [PTok.ws] ++ litToks ("i".toList) ++ [PTok.ws],
    litToks ("after".toList) ++ [PTok.ws] ++ litToks ("that".toList) ++ [PTok.ws] ++
      litToks ("i".toList) ++ [PTok.ws] ]

/-- `cleaned.replace(prefix, '')` for an anchored prefix regex. -/
def applyPre (s : Str) (p : List PTok) : Str :=
  match matchPre p s with
  | some r => r
  | none => s

def capFirst : Str → Str
  | [] => []
  | c :: cs => c.toUpper :: cs

def isPunctEnd (c : Char) : Bool := c = '.' || c = '!' || c = '?'

/-- `cleaned.replace(/[.!?]+$/, '')`. -/
def dropTrailingPunct (s : Str) : Str :=
  (s.reverse.dropWhile isPunctEnd).reverse

/-- `TextProcessor.cleanBullet`. -/
def cleanBullet (b : Str) : Str :=
  trimStr (dropTrailingPunct (capFirst (PREFIXES_TO_REMOVE.foldl applyPre (trimStr b))))

/-! ## The merge/overwrite engine of `TextProcessor` -/

/-- `TextProcessor.hasDateHeader`. -/
def hasDateHeader (content date : Str) : Bool :=
  (splitNL content).any (fun l => trimStr l == date)

/-- The multi-date-payload test both entry points perform:
`newBullets.some(b => /^\d{1,2}\.\d{1,2}\.\d{4}$/.test(b.trim()))`. -/
def hasMultiDates (bullets : List Str) : Bool :=
  bullets.any (fun b => isHeaderCore (trimStr b))

def groupsAdd (acc : List (Str × List Str)) (k : Str) : List (Str × List Str) :=
  if acc.any (fun g => g.1 == k) then acc else acc ++ [(k, [])]

def groupsPush (acc : List (Str × List Str)) (k : Str) (e : Str) : List (Str × List Str) :=
  acc.map (fun g => if g.1 == k then (g.1, g.2 ++ [e]) else g)

/-- One step of the payload-parsing loop shared by
`mergeMultiDateContent` and `overwriteMultiDateContent`; the state is
(`currentDate`, `dateEvents` as an insertion-ordered association list). -/
def parseStep (st : Option Str × List (Str × List Str)) (b : Str) :
    Option Str × List (Str × List Str) :=
  let t := trimStr b
  if isHeaderCore t then (some t, groupsAdd st.2 t)
  else if isBulletStart t then
    match st.1 with
    | some k => (st.1, groupsPush st.2 k t)
    | none => st
  else st

/-- The parsed `dateEvents` of a payload, in key-insertion order (the
iteration order of `Object.entries` for these non-index keys). -/
def parseGroups (bullets : List Str) : List (Str × List Str) :=
  (bullets.foldl parseStep (none, [])).2

/-- The body of the `for (const [date, events] of Object.entries(dateEvents))`
loop of `mergeMultiDateContent`. -/
def mergeOne (r : Str) (g : Str × List Str) : Str :=
  if g.2.isEmpty then r
  else if hasDateHeader r g.1 then
    let lines := splitNL r
    match firstIdx (fun l => trimStr l == g.1) lines with
    | some di =>
      let run := ((lines.drop (di + 1)).takeWhile
        (fun l => isBulletStart l || (trimStr l).isEmpty)).length
      joinNL (lines.take (di + 1 + run) ++ g.2 ++ lines.drop (di + 1 + run))
    | none => r
  else if r.isEmpty then g.1 ++ '\n' :: joinNL g.2
  else r ++ '\n' :: '\n' :: g.1 ++ '\n' :: joinNL g.2

/-- `TextProcessor.mergeMultiDateContent`. -/
def mergeMultiDateContent (content : Str) (bullets : List Str) : Str :=
  (parseGroups bullets).foldl mergeOne (trimStr content)

/-- The single-date branch of `appendToJournal` (ambient
`formatDateHeader()` passed as `todayS`). -/
def appendSingleDate (todayS content : Str) (bullets : List Str) : Str :=
  let hasDate := hasDateHeader content todayS
  let r := trimStr content
  let r2 :=
    if !hasDate then
      (if r.isEmpty then r else r ++ '\n' :: '\n' :: []) ++ todayS ++ ['\n']
    else if !r.isEmpty && !(r.getLast? == some '\n') then r ++ ['\n']
    else r
  r2 ++ joinNL bullets

/-- `TextProcessor.appendToJournal`. -/
def appendToJournal (todayS content : Str) (bullets : List Str) : Str :=
  if bullets.isEmpty then content
  else if hasMultiDates bullets then mergeMultiDateContent content bullets
  else appendSingleDate todayS content bullets

/-- `TextProcessor.overwriteSingleDate`. -/
def overwriteSingleDate (todayS content : Str) (newBullets : List Str)
    (dateToOverwrite : Str) : Str :=
  let lines := splitNL content
  match firstIdx (fun l => trimStr l == dateToOverwrite) lines with
  | none => appendToJournal todayS content (dateToOverwrite :: newBullets)
  | some di =>
    let run := ((lines.drop (di + 1)).takeWhile
      (fun l => !isHeaderCore (trimStr l))).length
    joinNL (lines.take (di + 1) ++ newBullets ++ lines.drop (di + 1 + run))

/-- `TextProcessor.overwriteMultiDateContent`. -/
def overwriteMultiDateContent (todayS content : Str) (bullets : List Str)
    (datesToOverwrite : List Str) : Str :=
  (parseGroups bullets).foldl
    (fun r g =>
      if g.2.isEmpty then r
      else if datesToOverwrite.any (fun d => d == g.1) then
        overwriteSingleDate todayS r g.2 g.1
      else appendToJournal todayS r (g.1 :: g.2))
    content

/-- `TextProcessor.overwriteJournal`. -/
def overwriteJournal (todayS content : Str) (bullets : List Str)
    (datesToOverwrite : List Str) : Str :=
  if bullets.isEmpty then content
  else if hasMultiDates bullets then
    overwriteMultiDateContent todayS content bullets datesToOverwrite
  else if datesToOverwrite.any (fun d => d == todayS) then
    overwriteSingleDate todayS content bullets todayS
  else appendToJournal todayS content bullets

/-- `TextProcessor.getAffectedDates` (`Set` iteration order is insertion
order, modelled by a dedup-preserving fold). -/
def getAffectedDates (todayS : Str) (bullets : List Str) : List Str :=
  if hasMultiDates bullets then
    bullets.foldl
      (fun acc b =>
        let t := trimStr b
        if isHeaderCore t then
          (if acc.any (fun x => x == t) then acc else acc ++ [t])
        else acc)
      []
  else [todayS]

/-- `TextProcessor.getExistingDates`. -/
def getExistingDates (content : Str) (dates : List Str) : List Str :=
  dates.filter (fun d => hasDateHeader content d)

/-! ## Specification-side definitions

These definitions are written from the specification's words (not from
the source); they serve as the reference points the claims are checked
against. -/

/-- A key of the shape `M.D.Y` with 1–2 digit month and day and a 1–4
digit year — the widest shape the normalizer can actually emit (the
canonical pattern demands exactly 4 year digits). -/
def isLooseKey (s : Str) : Bool :=
  let a := s.takeWhile Char.isDigit
  match s.drop a.length with
  | '.' :: r2 =>
    let b := r2.takeWhile Char.isDigit
    match r2.drop b.length with
    | '.' :: r4 =>
      decide (1 ≤ a.length) && decide (a.length ≤ 2) &&
      decide (1 ≤ b.length) && decide (b.length ≤ 2) &&
      r4.all Char.isDigit && decide (1 ≤ r4.length) && decide (r4.length ≤ 4)
    | _ => false
  | _ => false

/-- A plausible "current date" for the normalizer: a valid Gregorian
date with a four-digit year that stays four-digit one year earlier. -/
def ValidToday (dt : JDate) : Prop := ValidDate dt ∧ 1001 ≤ dt.y ∧ dt.y ≤ 9999

instance : DecidablePred ValidToday := fun dt => by unfold ValidToday; infer_instance

/-- A document with no leading or trailing whitespace (`doc.trim() == doc`). -/
def TrimStable (s : Str) : Prop := trimStr s = s

instance : DecidablePred TrimStable := fun s => by unfold TrimStable; infer_instance

/-- A payload whose elements are genuine single lines. -/
def NoNewlines (bs : List Str) : Prop := ∀ b ∈ bs, '\n' ∉ b

instance : DecidablePred NoNewlines := fun bs => by unfold NoNewlines; infer_instance

/-- The header keys of a document, in scan order (one entry per header
line, duplicates retained). -/
def headerKeys (s : Str) : List Str :=
  ((splitNL s).map trimStr).filter isHeaderCore

/-- How many header lines of the document carry the key `k`. -/
def countKey (s k : Str) : Nat := (headerKeys s).count k

/-- Position of the first header line strictly after index `i`
(or `lines.length` when none exists): the end of the section span that
starts at header index `i`, per the Document Model. -/
def nextHeaderIdx (lines : List Str) (i : Nat) : Nat :=
  match firstIdx (fun l => isHeaderCore (trimStr l)) (lines.drop (i + 1)) with
  | some j => i + 1 + j
  | none => lines.length

/-- The body of the first section with key `k`: all lines after its
header up to the next header line or end of document. -/
def sectionBody (s k : Str) : Option (List Str) :=
  (firstIdx (fun l => trimStr l == k) (splitNL s)).map
    (fun i => ((splitNL s).drop (i + 1)).takeWhile (fun l => !isHeaderCore (trimStr l)))

/-- The keys for which a merge adds a brand-new section, in group
order: parsed groups with at least one entry whose date has no header
in the original document. -/
def newSectionKeys (doc : Str) (bullets : List Str) : List Str :=
  ((parseGroups bullets).filter
    (fun g => !g.2.isEmpty && !hasDateHeader doc g.1)).map (fun g => g.1)

/-- Modelled from the spec (§4.2, claim C8's reading): cleanup that
strips at most ONE leading filler prefix — the prefixes evaluated in
listed order, the first match winning — then capitalizes and strips the
trailing punctuation run.  Compared against the source's `cleanBullet`. -/
def cleanBulletOnce (b : Str) : Str :=
  let t := trimStr b
  let t2 :=
    match PREFIXES_TO_REMOVE.findSome? (fun p => matchPre p t) with
    | some r => r
    | none => t
  trimStr (dropTrailingPunct (capFirst t2))

/-- Days back to the most recent past occurrence of weekday index `i`
as the source computes it (`daysBack <= 0` pushed to the previous week). -/
def bareBack (dt : JDate) (i : Nat) : Nat :=
  if getDayJS dt ≤ i then getDayJS dt + 7 - i else getDayJS dt - i

def allDigits (s : Str) : Bool := s.all Char.isDigit

def monthAbbrevsL : List Str :=
  ["jan".toList, "feb".toList, "mar".toList, "apr".toList, "may".toList,
   "jun".toList, "jul".toList, "aug".toList, "sep".toList, "oct".toList,
   "nov".toList, "dec".toList]

def ordSuffixes : List Str :=
  [[], "st".toList, "nd".toList, "rd".toList, "th".toList]

/-- Modelled from the spec (§4.1): the tail of the month-name grammar
after the month word — a space, a 1–2 digit day, an optional ordinal
suffix and an optional space-separated 4-digit year. -/
def specMonthRest (r : Str) : Bool :=
  match r with
  | ' ' :: r1 =>
    let d := r1.takeWhile Char.isDigit
    if d.length < 1 ∨ 2 < d.length then false else
    let r2 := r1.drop d.length
    ordSuffixes.any (fun suf =>
      suf.isPrefixOf r2 &&
      (let r3 := r2.drop suf.length
       r3.isEmpty ||
       (match r3 with
        | ' ' :: r4 => allDigits r4 && decide (r4.length = 4)
        | _ => false)))
  | _ => false

/-- Modelled from the spec (§4.1, §8): the seven recognized date
grammars, read literally — already-canonical; slash/dash numeric with
year; slash/dash numeric without year; the literal term "today"; the
literal term "yesterday"; a weekday name optionally prefixed "last"; a
month name (full or three-letter abbreviation) plus day with optional
ordinal suffix and optional 4-digit year (lower-case forms). -/
def specSevenGrammars (s : Str) : Bool :=
  isHeaderCore s || (fullDateMatch s).isSome || (shortDateMatch s).isSome ||
  s == "today".toList || s == "yesterday".toList ||
  dayNamesL.any (fun w => s == w || s == ("last ".toList) ++ w) ||
  (monthNamesL ++ monthAbbrevsL).any
    (fun mn => mn.isPrefixOf s && specMonthRest (s.drop mn.length))

/-- Well-formedness of a parsed group, as `parseGroups` guarantees it:
the key is a canonical header and every event is a trimmed `"- "` line. -/
def GroupWF (g : Str × List Str) : Prop :=
  isHeaderCore g.1 = true ∧ ∀ e ∈ g.2, trimStr e = e ∧ isBulletStart e = true

/-- Header-key extension: the result document's header lines are the
input's header lines followed by some new, pairwise-distinct keys that
had no header in the input.  Every engine operation extends header keys
this way, which is exactly the "never create a duplicate header"
discipline. -/
def HKExt (r res : Str) : Prop :=
  ∃ Δ, headerKeys res = headerKeys r ++ Δ ∧ Δ.Nodup ∧
    ∀ x ∈ Δ, isHeaderCore x = true ∧ hasDateHeader r x = false

/-- The number of lines the merge loop skips after an existing header:
the run of `"- "`-or-blank lines (the `insertIndex` scan). -/
def spliceRun (r : Str) (di : Nat) : Nat :=
  (((splitNL r).drop (di + 1)).takeWhile
    (fun l => isBulletStart l || (trimStr l).isEmpty)).length

/-- The number of lines the overwrite loop consumes after the header:
the run of non-header lines (the `endIndex` scan). -/
def owRun (r : Str) (di : Nat) : Nat :=
  (((splitNL r).drop (di + 1)).takeWhile (fun l => !isHeaderCore (trimStr l))).length

/-! ## Lemmas: splitting and joining on newlines -/

theorem splitNL_ne_nil (s : Str) : splitNL s ≠ [] := by
  induction s with
  | nil => simp [splitNL]
  | cons c cs ih =>
    simp only [splitNL]
    split
    · simp
    · cases h : splitNL cs with
      | nil => simp
      | cons a t => simp [h]

theorem splitNL_cons_newline (cs : Str) : splitNL ('\n' :: cs) = [] :: splitNL cs := by
  simp [splitNL]

theorem splitNL_cons_of_ne (c : Char) (cs : Str) (h : c ≠ '\n') :
    splitNL (c :: cs) = (c :: (splitNL cs).headI) :: (splitNL cs).tail := by
  simp only [splitNL, if_neg h]
  cases hs : splitNL cs with
  | nil => exact absurd hs (splitNL_ne_nil cs)
  | cons a t => simp

theorem joinNL_cons (l : Str) (ls : List Str) (h : ls ≠ []) :
    joinNL (l :: ls) = l ++ '\n' :: joinNL ls := by
  cases ls with
  | nil => exact absurd rfl h
  | cons a t => simp [joinNL]

theorem join_split (s : Str) : joinNL (splitNL s) = s := by
  induction s with
  | nil => simp [splitNL, joinNL]
  | cons c cs ih =>
    by_cases h : c = '\n'
    · subst h
      rw [splitNL_cons_newline, joinNL_cons _ _ (splitNL_ne_nil cs)]
      simp [ih]
    · rw [splitNL_cons_of_ne c cs h]
      cases hs : splitNL cs with
      | nil => exact absurd hs (splitNL_ne_nil cs)
      | cons a t =>
        rw [hs] at ih
        cases t with
        | nil => simp [joinNL] at ih ⊢; simp [ih]
        | cons b t2 =>
          simp only [List.headI, List.tail]
          rw [joinNL_cons _ _ (by simp)] at ih ⊢
          rw [← ih]
          simp

theorem noNL_of_mem_splitNL {l : Str} {s : Str} (h : l ∈ splitNL s) : '\n' ∉ l := by
  induction s generalizing l with
  | nil => simp [splitNL] at h; simp [h]
  | cons c cs ih =>
    by_cases hc : c = '\n'
    · subst hc
      rw [splitNL_cons_newline] at h
      rcases List.mem_cons.mp h with h1 | h1
      · simp [h1]
      · exact ih h1
    · rw [splitNL_cons_of_ne c cs hc] at h
      rcases List.mem_cons.mp h with h1 | h1
      · subst h1
        intro hmem
        rcases List.mem_cons.mp hmem with h2 | h2
        · exact hc h2.symm
        · have : (splitNL cs).headI ∈ splitNL cs := by
            cases hs : splitNL cs with
            | nil => exact absurd hs (splitNL_ne_nil cs)
            | cons a t => simp
          exact ih this h2
      · have : l ∈ splitNL cs := by
          cases hs : splitNL cs with
          | nil => exact absurd hs (splitNL_ne_nil cs)
          | cons a t => rw [hs] at h1; exact List.mem_cons_of_mem a (by simpa [hs] using h1)
        exact ih this

theorem splitNL_of_noNL {a : Str} (h : '\n' ∉ a) : splitNL a = [a] := by
  induction a with
  | nil => simp [splitNL]
  | cons c cs ih =>
    have hc : c ≠ '\n' := fun he => h (he ▸ List.mem_cons_self c cs)
    have hcs : '\n' ∉ cs := fun hm => h (List.mem_cons_of_mem c hm)
    rw [splitNL_cons_of_ne c cs hc, ih hcs]
    simp

theorem splitNL_append_newline (s t : Str) :
    splitNL (s ++ '\n' :: t) = splitNL s ++ splitNL t := by
  induction s with
  | nil => simp [splitNL_cons_newline, splitNL]
  | cons c cs ih =>
    by_cases hc : c = '\n'
    · subst hc
      rw [List.cons_append, splitNL_cons_newline, splitNL_cons_newline, ih]
      simp
    · rw [List.cons_append, splitNL_cons_of_ne c _ hc, splitNL_cons_of_ne c cs hc, ih]
      cases hs : splitNL cs with
      | nil => exact absurd hs (splitNL_ne_nil cs)
      | cons a l => simp

theorem splitNL_noNL_append (a t : Str) (h : '\n' ∉ a) :
    splitNL (a ++ '\n' :: t) = a :: splitNL t := by
  rw [splitNL_append_newline, splitNL_of_noNL h]; simp

theorem split_join {ls : List Str} (h : ∀ l ∈ ls, '\n' ∉ l) (hne : ls ≠ []) :
    splitNL (joinNL ls) = ls := by
  induction ls with
  | nil => exact absurd rfl hne
  | cons l rest ih =>
    cases rest with
    | nil =>
      simp only [joinNL]
      exact splitNL_of_noNL (h l (by simp))
    | cons b t =>
      rw [joinNL_cons _ _ (by simp)]
      rw [splitNL_noNL_append _ _ (h l (by simp))]
      rw [ih (fun x hx => h x (List.mem_cons_of_mem l hx)) (by simp)]

/-! ## Lemmas: trimming -/

theorem head?_dropWhile {p : α → Bool} {l : List α} {a : α}
    (h : (l.dropWhile p).head? = some a) : p a = false := by
  induction l with
  | nil => simp [List.dropWhile] at h
  | cons x xs ih =>
    rw [List.dropWhile_cons] at h
    split at h
    · exact ih h
    · rename_i hx
      simp only [List.head?] at h
      injection h with h
      subst h
      simpa using hx

theorem getLast?_dropWhile_ne {p : α → Bool} {l : List α}
    (h : l.dropWhile p ≠ []) : (l.dropWhile p).getLast? = l.getLast? := by
  induction l with
  | nil => simp [List.dropWhile] at h
  | cons x xs ih =>
    rw [List.dropWhile_cons]
    rw [List.dropWhile_cons] at h
    split at h
    · have hxs : xs ≠ [] := by
        intro he
        subst he
        simp [List.dropWhile] at h
      rw [if_pos (by assumption), ih h]
      cases xs with
      | nil => exact absurd rfl hxs
      | cons a t => simp [List.getLast?_cons_cons]
    · rw [if_neg (by assumption)]

theorem head?_trimStr_not_ws {s : Str} {c : Char}
    (h : (trimStr s).head? = some c) : isWS c = false := by
  unfold trimStr at h
  rw [List.head?_reverse] at h
  have hne : (((s.dropWhile isWS).reverse).dropWhile isWS) ≠ [] := by
    intro he
    rw [he] at h
    simp at h
  rw [getLast?_dropWhile_ne hne, List.getLast?_reverse] at h
  exact head?_dropWhile h

theorem getLast?_trimStr_not_ws {s : Str} {c : Char}
    (h : (trimStr s).getLast? = some c) : isWS c = false := by
  unfold trimStr at h
  rw [List.getLast?_reverse] at h
  exact head?_dropWhile h

theorem trimStable_of_ends {s : Str} {a b : Char}
    (h1 : s.head? = some a) (ha : isWS a = false)
    (h2 : s.getLast? = some b) (hb : isWS b = false) : trimStr s = s := by
  unfold trimStr
  have hd : s.dropWhile isWS = s := by
    cases s with
    | nil => rfl
    | cons x xs =>
      have hx : x = a := by simpa using h1
      rw [List.dropWhile_cons, if_neg (by simp [hx, ha])]
  rw [hd]
  have hrev : s.reverse.dropWhile isWS = s.reverse := by
    cases hr : s.reverse with
    | nil => rfl
    | cons y ys =>
      have hy : y = b := by
        have h3 := List.head?_reverse s
        rw [hr, h2] at h3
        simpa using h3
      rw [List.dropWhile_cons, if_neg (by simp [hy, hb])]
  rw [hrev, List.reverse_reverse]

theorem trimStr_idem (s : Str) : trimStr (trimStr s) = trimStr s := by
  cases h : trimStr s with
  | nil => rfl
  | cons x xs =>
    have h1 : (trimStr s).head? = some x := by rw [h]; rfl
    have h2 : ∃ b, (trimStr s).getLast? = some b := by
      rw [h]; exact ⟨_, List.getLast?_cons⟩
    obtain ⟨b, h2⟩ := h2
    have := trimStable_of_ends (h ▸ h1) (head?_trimStr_not_ws h1) (h ▸ h2)
      (getLast?_trimStr_not_ws h2)
    rw [← h] at this ⊢
    exact this

theorem mem_trimStr {c : Char} {s : Str} (h : c ∈ trimStr s) : c ∈ s := by
  unfold trimStr at h
  rw [List.mem_reverse] at h
  have h2 := (List.dropWhile_sublist (l := (s.dropWhile isWS).reverse) isWS).mem h
  rw [List.mem_reverse] at h2
  exact (List.dropWhile_sublist (l := s) isWS).mem h2

theorem trimStr_noNL {s : Str} (h : '\n' ∉ s) : '\n' ∉ trimStr s :=
  fun hc => h (mem_trimStr hc)

theorem trimStr_cons_ws {c : Char} {s : Str} (h : isWS c = true) :
    trimStr (c :: s) = trimStr s := by
  unfold trimStr
  rw [List.dropWhile_cons, if_pos h]

theorem trimStr_append_ws {c : Char} {s : Str} (h : isWS c = true) :
    trimStr (s ++ [c]) = trimStr s := by
  unfold trimStr
  rw [List.dropWhile_append]
  split
  · rename_i he
    rw [List.isEmpty_iff] at he
    rw [he]
    simp [List.dropWhile, h]
  · rw [List.reverse_append]
    simp only [List.reverse_cons, List.reverse_nil, List.nil_append, List.singleton_append]
    rw [List.dropWhile_cons, if_pos h]

theorem trimStable_trimStr (s : Str) : TrimStable (trimStr s) := trimStr_idem s

theorem trimStable_head {s : Str} (h : TrimStable s) {c : Char}
    (hc : s.head? = some c) : isWS c = false :=
  head?_trimStr_not_ws (s := s) (by rw [h]; exact hc)

theorem trimStable_getLast {s : Str} (h : TrimStable s) {c : Char}
    (hc : s.getLast? = some c) : isWS c = false :=
  getLast?_trimStr_not_ws (s := s) (by rw [h]; exact hc)

/-! ## Lemmas: joining, heads and lasts -/

theorem joinNL_append (as bs : List Str) (ha : as ≠ []) (hb : bs ≠ []) :
    joinNL (as ++ bs) = joinNL as ++ '\n' :: joinNL bs := by
  induction as with
  | nil => exact absurd rfl ha
  | cons a t ih =>
    cases t with
    | nil =>
      rw [List.cons_append, List.nil_append, joinNL_cons _ _ hb]
      rfl
    | cons b t2 =>
      rw [List.cons_append, joinNL_cons _ _ (by simp), joinNL_cons _ _ (by simp),
        ih (by simp)]
      simp

theorem head?_joinNL (l : Str) (ls : List Str) (h : l ≠ []) :
    (joinNL (l :: ls)).head? = l.head? := by
  cases ls with
  | nil => rfl
  | cons b t =>
    rw [joinNL_cons _ _ (by simp), List.head?_append]
    cases l with
    | nil => exact absurd rfl h
    | cons x xs => rfl

theorem getLast?_joinNL (ls : List Str) (l : Str) (h : l ≠ []) :
    (joinNL (ls ++ [l])).getLast? = l.getLast? := by
  cases ls with
  | nil => rfl
  | cons a t =>
    rw [joinNL_append (a :: t) [l] (by simp) (by simp)]
    show (joinNL (a :: t) ++ '\n' :: joinNL [l]).getLast? = l.getLast?
    have hj : joinNL [l] = l := rfl
    rw [hj, List.getLast?_append]
    cases l with
    | nil => exact absurd rfl h
    | cons x xs =>
      rw [List.getLast?_cons_cons, List.getLast?_cons]
      simp

/-! ## Lemmas: takeWhile and firstIdx -/

theorem takeWhile_append_stop {p : α → Bool} {a : List α} {y : α} (b : List α)
    (ha : ∀ x ∈ a, p x = true) (hy : p y = false) :
    (a ++ y :: b).takeWhile p = a := by
  induction a with
  | nil => simp [List.takeWhile_cons, hy]
  | cons x xs ih =>
    rw [List.cons_append, List.takeWhile_cons, if_pos (ha x (by simp))]
    rw [ih (fun z hz => ha z (List.mem_cons_of_mem x hz))]

theorem firstIdx_cons_pos {p : α → Bool} {a : α} (l : List α) (h : p a = true) :
    firstIdx p (a :: l) = some 0 := by
  simp [firstIdx, h]

theorem firstIdx_cons_neg {p : α → Bool} {a : α} (l : List α) (h : p a = false) :
    firstIdx p (a :: l) = (firstIdx p l).map (· + 1) := by
  simp [firstIdx, h]

theorem firstIdx_eq_none_iff {p : α → Bool} {l : List α} :
    firstIdx p l = none ↔ ∀ x ∈ l, p x = false := by
  induction l with
  | nil => simp [firstIdx]
  | cons a as ih =>
    by_cases h : p a = true
    · rw [firstIdx_cons_pos as h]
      simp [h]
    · rw [firstIdx_cons_neg as (by simpa using h)]
      simp only [Option.map_eq_none', ih]
      constructor
      · intro hall x hx
        rcases List.mem_cons.mp hx with h1 | h1
        · subst h1; simpa using h
        · exact hall x h1
      · intro hall x hx
        exact hall x (List.mem_cons_of_mem a hx)

theorem firstIdx_append_some {p : α → Bool} {a : List α} {i : Nat} (b : List α)
    (h : firstIdx p a = some i) : firstIdx p (a ++ b) = some i := by
  induction a generalizing i with
  | nil => simp [firstIdx] at h
  | cons x xs ih =>
    by_cases hx : p x = true
    · rw [firstIdx_cons_pos _ hx] at h
      rw [List.cons_append, firstIdx_cons_pos _ hx]
      exact h
    · rw [firstIdx_cons_neg _ (by simpa using hx)] at h
      rcases Option.map_eq_some'.mp h with ⟨j, hj, hji⟩
      rw [List.cons_append, firstIdx_cons_neg _ (by simpa using hx), ih hj]
      simp [hji]

theorem firstIdx_append_none {p : α → Bool} {a : List α} (b : List α)
    (h : ∀ x ∈ a, p x = false) :
    firstIdx p (a ++ b) = (firstIdx p b).map (fun j => a.length + j) := by
  induction a with
  | nil => cases h2 : firstIdx p b <;> simp [h2]
  | cons x xs ih =>
    rw [List.cons_append, firstIdx_cons_neg _ (h x (by simp)),
      ih (fun z hz => h z (List.mem_cons_of_mem x hz)), Option.map_map]
    cases h2 : firstIdx p b <;> (simp [h2]; try omega)

theorem firstIdx_decomp {p : α → Bool} {l : List α} {i : Nat}
    (h : firstIdx p l = some i) :
    ∃ pre a suf, l = pre ++ a :: suf ∧ pre.length = i ∧ p a = true ∧
      ∀ x ∈ pre, p x = false := by
  induction l generalizing i with
  | nil => simp [firstIdx] at h
  | cons x xs ih =>
    by_cases hx : p x = true
    · rw [firstIdx_cons_pos _ hx] at h
      injection h with h
      exact ⟨[], x, xs, by simp, by simp [← h], hx, by simp⟩
    · rw [firstIdx_cons_neg _ (by simpa using hx)] at h
      rcases Option.map_eq_some'.mp h with ⟨j, hj, hji⟩
      rcases ih hj with ⟨pre, a, suf, hl, hlen, hpa, hpre⟩
      refine ⟨x :: pre, a, suf, by simp [hl], by simp [hlen, ← hji], hpa, ?_⟩
      intro z hz
      rcases List.mem_cons.mp hz with h1 | h1
      · subst h1; simpa using hx
      · exact hpre z h1

theorem firstIdx_some_lt {p : α → Bool} {l : List α} {i : Nat}
    (h : firstIdx p l = some i) : i < l.length := by
  rcases firstIdx_decomp h with ⟨pre, a, suf, hl, hlen, _, _⟩
  subst hl
  simp [← hlen]

theorem takeWhile_neg_len_of_some {p : α → Bool} {l : List α} {i : Nat}
    (h : firstIdx p l = some i) :
    (l.takeWhile (fun x => !p x)).length = i := by
  rcases firstIdx_decomp h with ⟨pre, a, suf, hl, hlen, hpa, hpre⟩
  subst hl
  rw [takeWhile_append_stop suf (fun x hx => by simp [hpre x hx]) (by simp [hpa])]
  exact hlen

theorem takeWhile_neg_len_of_none {p : α → Bool} {l : List α}
    (h : firstIdx p l = none) :
    (l.takeWhile (fun x => !p x)).length = l.length := by
  have hall := firstIdx_eq_none_iff.mp h
  rw [List.takeWhile_eq_self_iff.mpr (fun x hx => by simp [hall x hx])]

/-! ## Lemmas: character classes, header keys, digit strings -/

theorem digit_toNat_bounds {c : Char} (h : c.isDigit = true) :
    48 ≤ c.toNat ∧ c.toNat ≤ 57 := by
  unfold Char.isDigit at h
  simp at h
  obtain ⟨h1, h2⟩ := h
  rw [UInt32.le_def] at h1 h2
  unfold Char.toNat
  exact ⟨by simpa using h1, by simpa using h2⟩

theorem not_ws_of_digit {c : Char} (h : c.isDigit = true) : isWS c = false := by
  cases hws : isWS c
  · rfl
  · exfalso
    unfold isWS Char.isWhitespace at hws
    simp at hws
    rcases hws with ((h1 | h1) | h1) | h1 <;>
      (subst h1; exact absurd h (by decide))

theorem ofNat_digit_isDigit {k : Nat} (h : k < 10) :
    (Char.ofNat (48 + k)).isDigit = true := by
  interval_cases k <;> decide

theorem takeWhile_append_drop_len (p : α → Bool) (l : List α) :
    l.takeWhile p ++ l.drop (l.takeWhile p).length = l := by
  induction l with
  | nil => rfl
  | cons x xs ih =>
    rw [List.takeWhile_cons]
    split
    · simpa using ih
    · rfl

theorem isHeaderCore_decomp {s : Str} (h : isHeaderCore s = true) :
    ∃ a b c, s = a ++ '.' :: b ++ '.' :: c ∧
      (∀ x ∈ a, x.isDigit = true) ∧ 1 ≤ a.length ∧ a.length ≤ 2 ∧
      (∀ x ∈ b, x.isDigit = true) ∧ 1 ≤ b.length ∧ b.length ≤ 2 ∧
      (∀ x ∈ c, x.isDigit = true) ∧ c.length = 4 := by
  simp only [isHeaderCore] at h
  split at h
  case h_2 => exact absurd h (by simp)
  case h_1 r2 heq1 =>
    split at h
    case h_2 => exact absurd h (by simp)
    case h_1 r4 heq2 =>
      simp only [Bool.and_eq_true, decide_eq_true_eq, List.all_eq_true] at h
      obtain ⟨⟨⟨⟨⟨ha1, ha2⟩, hb1⟩, hb2⟩, hcall⟩, hc4⟩ := h
      refine ⟨s.takeWhile Char.isDigit, r2.takeWhile Char.isDigit, r4, ?_, ?_, ha1, ha2,
        ?_, hb1, hb2, hcall, hc4⟩
      · have e1 : s = s.takeWhile Char.isDigit ++ '.' :: r2 := by
          conv_lhs => rw [← takeWhile_append_drop_len Char.isDigit s, heq1]
        have e2 : r2 = r2.takeWhile Char.isDigit ++ '.' :: r4 := by
          conv_lhs => rw [← takeWhile_append_drop_len Char.isDigit r2, heq2]
        conv_lhs => rw [e1]
        conv_lhs => rw [e2]
        simp
      · exact fun x hx => List.mem_takeWhile_imp hx
      · exact fun x hx => List.mem_takeWhile_imp hx

theorem isHeaderCore_chars {s : Str} (h : isHeaderCore s = true) :
    ∀ x ∈ s, x.isDigit = true ∨ x = '.' := by
  rcases isHeaderCore_decomp h with ⟨a, b, c, hs, ha, _, _, hb, _, _, hc, _⟩
  subst hs
  intro x hx
  rcases List.mem_append.mp hx with h1 | h1
  · rcases List.mem_append.mp h1 with h2 | h2
    · exact Or.inl (ha x h2)
    · rcases List.mem_cons.mp h2 with h3 | h3
      · exact Or.inr h3
      · exact Or.inl (hb x h3)
  · rcases List.mem_cons.mp h1 with h3 | h3
    · exact Or.inr h3
    · exact Or.inl (hc x h3)

theorem isHeaderCore_noNL {s : Str} (h : isHeaderCore s = true) : '\n' ∉ s := by
  intro hmem
  rcases isHeaderCore_chars h '\n' hmem with h1 | h1
  · exact absurd h1 (by decide)
  · exact absurd h1 (by decide)

theorem isHeaderCore_not_ws {s : Str} (h : isHeaderCore s = true) :
    ∀ x ∈ s, isWS x = false := by
  intro x hx
  rcases isHeaderCore_chars h x hx with h1 | h1
  · exact not_ws_of_digit h1
  · subst h1; decide

theorem isHeaderCore_ne_nil {s : Str} (h : isHeaderCore s = true) : s ≠ [] := by
  rcases isHeaderCore_decomp h with ⟨a, b, c, hs, _, ha1, _, _, _, _, _, _⟩
  subst hs
  cases a with
  | nil => simp at ha1
  | cons x xs => simp

theorem isHeaderCore_trimStable {s : Str} (h : isHeaderCore s = true) :
    trimStr s = s := by
  rcases hne : s with _ | ⟨x, xs⟩
  · rfl
  · rw [← hne]
    have hhead : s.head? = some (s.head (hne ▸ by simp)) := List.head?_eq_head _
    have hlast : s.getLast? = some (s.getLast (hne ▸ by simp)) := List.getLast?_eq_getLast _ _
    exact trimStable_of_ends hhead
      (isHeaderCore_not_ws h _ (List.head_mem _))
      hlast (isHeaderCore_not_ws h _ (List.getLast_mem _))

theorem isHeaderCore_not_bullet {s : Str} (h : isHeaderCore s = true) :
    isBulletStart s = false := by
  rcases isHeaderCore_decomp h with ⟨a, b, c, hs, ha, ha1, _, _, _, _, _, _⟩
  cases hbul : isBulletStart s
  · rfl
  · exfalso
    unfold isBulletStart at hbul
    have hpre := List.isPrefixOf_iff_prefix.mp hbul
    subst hs
    cases a with
    | nil => simp at ha1
    | cons x xs =>
      have hx : x = '-' := by
        rcases hpre with ⟨t, ht⟩
        simp only [String.toList] at ht
        have : '-' :: ' ' :: t = x :: (xs ++ '.' :: b ++ '.' :: c) := by
          simpa using ht
        injection this with h1 _
        exact h1.symm
      have := ha x (by simp)
      rw [hx] at this
      exact absurd this (by decide)

theorem bullet_not_header {s : Str} (h : isBulletStart s = true) :
    isHeaderCore s = false := by
  cases hh : isHeaderCore s
  · rfl
  · rw [isHeaderCore_not_bullet hh] at h
    exact absurd h (by simp)

/-! ## Lemmas: decimal digit strings -/

theorem natToDigitsF_congr :
    ∀ (f g n : Nat), n ≤ f → n ≤ g → natToDigitsF f n = natToDigitsF g n := by
  intro f
  induction f with
  | zero =>
    intro g n hf _
    have hn : n = 0 := by omega
    subst hn
    cases g with
    | zero => rfl
    | succ g' => simp [natToDigitsF]
  | succ f' ih =>
    intro g n hf hg
    cases g with
    | zero =>
      have hn : n = 0 := by omega
      subst hn
      simp [natToDigitsF]
    | succ g' =>
      show (if n < 10 then [Char.ofNat (48 + n)]
          else natToDigitsF f' (n / 10) ++ [Char.ofNat (48 + n % 10)]) =
        (if n < 10 then [Char.ofNat (48 + n)]
          else natToDigitsF g' (n / 10) ++ [Char.ofNat (48 + n % 10)])
      by_cases h : n < 10
      · rw [if_pos h, if_pos h]
      · rw [if_neg h, if_neg h]
        have hlt : n / 10 < n := Nat.div_lt_self (by omega) (by omega)
        rw [ih g' (n / 10) (by omega) (by omega)]

theorem natToDigits_eq (n : Nat) :
    natToDigits n = if n < 10 then [Char.ofNat (48 + n)]
      else natToDigits (n / 10) ++ [Char.ofNat (48 + n % 10)] := by
  unfold natToDigits
  by_cases h : n < 10
  · rw [if_pos h]
    cases n with
    | zero => rfl
    | succ m =>
      show (if m + 1 < 10 then [Char.ofNat (48 + (m + 1))]
          else natToDigitsF m ((m + 1) / 10) ++ [Char.ofNat (48 + (m + 1) % 10)]) = _
      rw [if_pos h]
  · rw [if_neg h]
    obtain ⟨m, rfl⟩ : ∃ m, n = m + 1 := ⟨n - 1, by omega⟩
    show (if m + 1 < 10 then [Char.ofNat (48 + (m + 1))]
        else natToDigitsF m ((m + 1) / 10) ++ [Char.ofNat (48 + (m + 1) % 10)]) = _
    rw [if_neg h]
    have hlt : (m + 1) / 10 < m + 1 := Nat.div_lt_self (by omega) (by omega)
    rw [natToDigitsF_congr m ((m + 1) / 10) ((m + 1) / 10) (by omega) (Nat.le_refl _)]

theorem natToDigits_all_digit : ∀ n, ∀ x ∈ natToDigits n, x.isDigit = true := by
  intro n
  induction n using Nat.strong_induction_on with
  | _ n ih =>
    intro x hx
    rw [natToDigits_eq] at hx
    split at hx
    · rename_i hlt
      simp at hx
      subst hx
      exact ofNat_digit_isDigit hlt
    · rename_i hge
      rcases List.mem_append.mp hx with h1 | h1
      · exact ih (n / 10) (Nat.div_lt_self (by omega) (by omega)) x h1
      · simp at h1
        subst h1
        exact ofNat_digit_isDigit (Nat.mod_lt _ (by omega))

theorem natToDigits_ne_nil (n : Nat) : natToDigits n ≠ [] := by
  rw [natToDigits_eq]
  split <;> simp

theorem natToDigits_len1 {n : Nat} (h : n < 10) : (natToDigits n).length = 1 := by
  rw [natToDigits_eq, if_pos h]
  rfl

theorem natToDigits_length_pow {k : Nat} : ∀ {n : Nat}, 10 ^ k ≤ n → n < 10 ^ (k + 1) →
    (natToDigits n).length = k + 1 := by
  induction k with
  | zero =>
    intro n h1 h2
    exact natToDigits_len1 (by simpa using h2)
  | succ k ih =>
    intro n h1 h2
    have hge : ¬n < 10 := by
      have : 10 ≤ 10 ^ (k + 1) := by
        calc 10 = 10 ^ 1 := by norm_num
        _ ≤ 10 ^ (k + 1) := Nat.pow_le_pow_right (by omega) (by omega)
      omega
    rw [natToDigits_eq, if_neg hge]
    rw [List.length_append]
    have hd1 : 10 ^ k ≤ n / 10 := by
      rw [Nat.le_div_iff_mul_le (by omega)]
      calc 10 ^ k * 10 = 10 ^ (k + 1) := by ring
      _ ≤ n := h1
    have hd2 : n / 10 < 10 ^ (k + 1) := by
      rw [Nat.div_lt_iff_lt_mul (by omega)]
      calc n < 10 ^ (k + 1 + 1) := h2
      _ = 10 ^ (k + 1) * 10 := by ring
    rw [ih hd1 hd2]
    simp

theorem natToDigits_len_le2 {n : Nat} (h : n < 100) : (natToDigits n).length ≤ 2 := by
  by_cases h1 : n < 10
  · rw [natToDigits_len1 h1]; omega
  · rw [natToDigits_length_pow (k := 1) (by omega) (by norm_num; omega)]

theorem natToDigits_len4 {n : Nat} (h1 : 1000 ≤ n) (h2 : n ≤ 9999) :
    (natToDigits n).length = 4 := by
  rw [natToDigits_length_pow (k := 3) (by norm_num; omega) (by norm_num; omega)]

theorem natToDigits_len_le4 {n : Nat} (h : n < 10000) : (natToDigits n).length ≤ 4 := by
  by_cases ha : n < 10
  · rw [natToDigits_len1 ha]; omega
  by_cases hb : n < 100
  · have := natToDigits_len_le2 hb; omega
  by_cases hc : n < 1000
  · rw [natToDigits_length_pow (k := 2) (by norm_num; omega) (by norm_num; omega)]
    omega
  · rw [natToDigits_len4 (by omega) (by omega)]

theorem natToDigits_len_ge1 (n : Nat) : 1 ≤ (natToDigits n).length := by
  cases hl : natToDigits n with
  | nil => exact absurd hl (natToDigits_ne_nil n)
  | cons x xs => simp

theorem parseIntDigits_fold_lt {s : Str} (hdig : ∀ c ∈ s, c.isDigit = true) :
    ∀ a : Nat, s.foldl (fun a c => 10 * a + (c.toNat - 48)) a < (a + 1) * 10 ^ s.length := by
  induction s with
  | nil => intro a; simp
  | cons c cs ih =>
    intro a
    simp only [List.foldl_cons]
    have hc := digit_toNat_bounds (hdig c (by simp))
    calc cs.foldl (fun a c => 10 * a + (c.toNat - 48)) (10 * a + (c.toNat - 48))
        < (10 * a + (c.toNat - 48) + 1) * 10 ^ cs.length :=
          ih (fun x hx => hdig x (List.mem_cons_of_mem c hx)) _
      _ ≤ ((a + 1) * 10) * 10 ^ cs.length := by
          have : 10 * a + (c.toNat - 48) + 1 ≤ (a + 1) * 10 := by omega
          exact Nat.mul_le_mul_right _ this
      _ = (a + 1) * 10 ^ (c :: cs).length := by
          simp [List.length_cons]
          ring

theorem parseIntDigits_lt {s : Str} (hdig : ∀ c ∈ s, c.isDigit = true) :
    parseIntDigits s < 10 ^ s.length := by
  have := parseIntDigits_fold_lt hdig 0
  simpa [parseIntDigits] using this

/-! ## Lemmas: header lookup and line structure -/

theorem firstIdx_isSome_iff_any {p : α → Bool} {l : List α} :
    (firstIdx p l).isSome = l.any p := by
  induction l with
  | nil => simp [firstIdx]
  | cons a as ih =>
    by_cases h : p a = true
    · rw [firstIdx_cons_pos _ h]
      simp [h]
    · rw [firstIdx_cons_neg _ (by simpa using h)]
      simp only [List.any_cons, h, Bool.false_or, ← ih]
      cases firstIdx p as <;> simp

theorem hasDateHeader_iff_firstIdx {s k : Str} :
    hasDateHeader s k = true ↔ ∃ i, firstIdx (fun l => trimStr l == k) (splitNL s) = some i := by
  unfold hasDateHeader
  rw [← firstIdx_isSome_iff_any]
  cases h : firstIdx (fun l => trimStr l == k) (splitNL s) <;> simp [h]

theorem hasDateHeader_false_firstIdx {s k : Str} (h : hasDateHeader s k = false) :
    firstIdx (fun l => trimStr l == k) (splitNL s) = none := by
  cases hf : firstIdx (fun l => trimStr l == k) (splitNL s)
  · rfl
  · exact absurd (hasDateHeader_iff_firstIdx.mpr ⟨_, hf⟩) (by simp [h])

theorem hasDateHeader_iff_mem {s k : Str} (hk : isHeaderCore k = true) :
    hasDateHeader s k = true ↔ k ∈ headerKeys s := by
  unfold hasDateHeader headerKeys
  rw [List.any_eq_true]
  constructor
  · rintro ⟨l, hl, he⟩
    rw [beq_iff_eq] at he
    rw [List.mem_filter]
    exact ⟨he ▸ List.mem_map_of_mem trimStr hl, he ▸ hk⟩
  · intro hmem
    rcases List.mem_filter.mp hmem with ⟨hmem2, _⟩
    rcases List.mem_map.mp hmem2 with ⟨l, hl, he⟩
    exact ⟨l, hl, by rw [beq_iff_eq]; exact he⟩

theorem hasDateHeader_nil {k : Str} (hk : isHeaderCore k = true) :
    hasDateHeader [] k = false := by
  unfold hasDateHeader
  simp only [splitNL, List.any_cons, List.any_nil, Bool.or_false]
  cases he : (trimStr [] == k)
  · rfl
  · rw [beq_iff_eq] at he
    exact absurd (he ▸ hk) (by decide)

theorem splitNL_head_struct {r : Str} (hts : TrimStable r) (hne : r ≠ []) :
    ∃ c h t, r.head? = some c ∧ isWS c = false ∧ splitNL r = (c :: h) :: t := by
  cases r with
  | nil => exact absurd rfl hne
  | cons c cs =>
    have hcw : isWS c = false := trimStable_head hts rfl
    have hcn : c ≠ '\n' := by
      intro he
      subst he
      exact absurd hcw (by decide)
    refine ⟨c, (splitNL cs).headI, (splitNL cs).tail, rfl, hcw, ?_⟩
    exact splitNL_cons_of_ne c cs hcn

theorem splitNL_last_struct {r : Str} (hts : TrimStable r) (hne : r ≠ []) :
    ∃ T L, splitNL r = T ++ [L] ∧ L ≠ [] ∧ L.getLast? = r.getLast? := by
  have hL : ∃ T L, splitNL r = T ++ [L] := by
    rcases List.eq_nil_or_concat (splitNL r) with h | ⟨T, L, h⟩
    · exact absurd h (splitNL_ne_nil r)
    · exact ⟨T, L, by rw [h, List.concat_eq_append]⟩
  rcases hL with ⟨T, L, hTL⟩
  have hj := join_split r
  rw [hTL] at hj
  have hLne : L ≠ [] := by
    intro hLnil
    subst hLnil
    cases T with
    | nil =>
      simp [joinNL] at hj
      exact hne hj
    | cons a t =>
      rw [joinNL_append (a :: t) [[]] (by simp) (by simp)] at hj
      have hlnl : r.getLast? = some '\n' := by
        rw [← hj]
        show (joinNL (a :: t) ++ '\n' :: joinNL [([] : Str)]).getLast? = some '\n'
        rw [List.getLast?_append]
        rfl
      have := trimStable_getLast hts hlnl
      exact absurd this (by decide)
  refine ⟨T, L, hTL, hLne, ?_⟩
  rw [← hj]
  exact (getLast?_joinNL T L hLne).symm

/-! ## Lemmas: the payload parser -/

theorem groupsPush_keys (acc : List (Str × List Str)) (k e : Str) :
    (groupsPush acc k e).map (fun g => g.1) = acc.map (fun g => g.1) := by
  unfold groupsPush
  rw [List.map_map]
  apply List.map_congr_left
  intro g _
  simp only [Function.comp]
  split <;> rfl

theorem parseStep_header {st : Option Str × List (Str × List Str)} {b : Str}
    (h : isHeaderCore (trimStr b) = true) :
    parseStep st b = (some (trimStr b), groupsAdd st.2 (trimStr b)) := by
  unfold parseStep
  rw [if_pos h]

theorem parseStep_push {st : Option Str × List (Str × List Str)} {b k : Str}
    (hh : isHeaderCore (trimStr b) = false) (hbul : isBulletStart (trimStr b) = true)
    (hk : st.1 = some k) :
    parseStep st b = (st.1, groupsPush st.2 k (trimStr b)) := by
  unfold parseStep
  rw [if_neg (by simp [hh]), if_pos hbul, hk]

theorem parseStep_skip_nokey {st : Option Str × List (Str × List Str)} {b : Str}
    (hh : isHeaderCore (trimStr b) = false) (hbul : isBulletStart (trimStr b) = true)
    (hk : st.1 = none) :
    parseStep st b = st := by
  unfold parseStep
  rw [if_neg (by simp [hh]), if_pos hbul, hk]

theorem parseStep_skip {st : Option Str × List (Str × List Str)} {b : Str}
    (hh : isHeaderCore (trimStr b) = false) (hbul : isBulletStart (trimStr b) = false) :
    parseStep st b = st := by
  unfold parseStep
  rw [if_neg (by simp [hh]), if_neg (by simp [hbul])]

theorem parseStep_wf {st : Option Str × List (Str × List Str)} {b : Str}
    (h : ∀ g ∈ st.2, GroupWF g) : ∀ g ∈ (parseStep st b).2, GroupWF g := by
  by_cases hh : isHeaderCore (trimStr b) = true
  · rw [parseStep_header hh]
    intro g hg
    simp only at hg
    unfold groupsAdd at hg
    split at hg
    · exact h g hg
    · rcases List.mem_append.mp hg with h1 | h1
      · exact h g h1
      · simp at h1
        subst h1
        exact ⟨hh, by simp⟩
  · by_cases hbul : isBulletStart (trimStr b) = true
    · cases hk : st.1 with
      | none => rw [parseStep_skip_nokey (by simpa using hh) hbul hk]; exact h
      | some k =>
        rw [parseStep_push (by simpa using hh) hbul hk]
        intro g hg
        simp only at hg
        unfold groupsPush at hg
        rcases List.mem_map.mp hg with ⟨g0, hg0, he⟩
        split at he
        · subst he
          refine ⟨(h g0 hg0).1, ?_⟩
          intro e hemem
          rcases List.mem_append.mp hemem with h1 | h1
          · exact (h g0 hg0).2 e h1
          · simp at h1
            subst h1
            exact ⟨trimStr_idem b, hbul⟩
        · subst he
          exact h g0 hg0
    · rw [parseStep_skip (by simpa using hh) (by simpa using hbul)]
      exact h

theorem parseGroups_wf {bullets : List Str} : ∀ g ∈ parseGroups bullets, GroupWF g := by
  unfold parseGroups
  suffices haux : ∀ (bs : List Str) (st : Option Str × List (Str × List Str)),
      (∀ g ∈ st.2, GroupWF g) → ∀ g ∈ (bs.foldl parseStep st).2, GroupWF g by
    exact haux bullets (none, []) (by simp)
  intro bs
  induction bs with
  | nil => intro st h; exact h
  | cons b rest ih =>
    intro st h
    rw [List.foldl_cons]
    exact ih (parseStep st b) (parseStep_wf h)

theorem parseStep_events_noNL {st : Option Str × List (Str × List Str)} {b : Str}
    (hb : '\n' ∉ b) (h : ∀ g ∈ st.2, ∀ e ∈ g.2, '\n' ∉ e) :
    ∀ g ∈ (parseStep st b).2, ∀ e ∈ g.2, '\n' ∉ e := by
  by_cases hh : isHeaderCore (trimStr b) = true
  · rw [parseStep_header hh]
    intro g hg
    simp only at hg
    unfold groupsAdd at hg
    split at hg
    · exact h g hg
    · rcases List.mem_append.mp hg with h1 | h1
      · exact h g h1
      · simp at h1
        subst h1
        simp
  · by_cases hbul : isBulletStart (trimStr b) = true
    · cases hk : st.1 with
      | none => rw [parseStep_skip_nokey (by simpa using hh) hbul hk]; exact h
      | some k =>
        rw [parseStep_push (by simpa using hh) hbul hk]
        intro g hg
        simp only at hg
        unfold groupsPush at hg
        rcases List.mem_map.mp hg with ⟨g0, hg0, he⟩
        split at he
        · subst he
          intro e hemem
          rcases List.mem_append.mp hemem with h1 | h1
          · exact h g0 hg0 e h1
          · simp at h1
            subst h1
            exact trimStr_noNL hb
        · subst he
          exact h g0 hg0
    · rw [parseStep_skip (by simpa using hh) (by simpa using hbul)]
      exact h

theorem parseGroups_events_noNL {bullets : List Str} (hb : NoNewlines bullets) :
    ∀ g ∈ parseGroups bullets, ∀ e ∈ g.2, '\n' ∉ e := by
  unfold parseGroups
  suffices haux : ∀ (bs : List Str), (∀ b ∈ bs, '\n' ∉ b) →
      ∀ (st : Option Str × List (Str × List Str)),
      (∀ g ∈ st.2, ∀ e ∈ g.2, '\n' ∉ e) →
      ∀ g ∈ (bs.foldl parseStep st).2, ∀ e ∈ g.2, '\n' ∉ e by
    exact haux bullets hb (none, []) (by simp)
  intro bs
  induction bs with
  | nil => intro _ st h; exact h
  | cons b rest ih =>
    intro hbs st h
    rw [List.foldl_cons]
    exact ih (fun x hx => hbs x (List.mem_cons_of_mem b hx)) (parseStep st b)
      (parseStep_events_noNL (hbs b (by simp)) h)

theorem parseGroups_single {k : Str} {E : List Str}
    (hk : isHeaderCore k = true) (hkt : trimStr k = k)
    (hE : ∀ e ∈ E, trimStr e = e ∧ isBulletStart e = true) :
    parseGroups (k :: E) = [(k, E)] := by
  unfold parseGroups
  rw [List.foldl_cons]
  have hstep1 : parseStep (none, []) k = (some k, [(k, [])]) := by
    rw [show parseStep ((none : Option Str), ([] : List (Str × List Str))) k =
      (some (trimStr k), groupsAdd [] (trimStr k)) from parseStep_header (by rw [hkt]; exact hk)]
    rw [hkt]
    rfl
  rw [hstep1]
  suffices haux : ∀ (es : List Str) (acc : List Str),
      (∀ e ∈ es, trimStr e = e ∧ isBulletStart e = true) →
      (es.foldl parseStep (some k, [(k, acc)])).2 = [(k, acc ++ es)] by
    simpa using haux E [] hE
  intro es
  induction es with
  | nil => intro acc _; simp
  | cons e rest ih =>
    intro acc hes
    rw [List.foldl_cons]
    have he := hes e (by simp)
    have hstep : parseStep (some k, [(k, acc)]) e = (some k, [(k, acc ++ [e])]) := by
      rw [parseStep_push (k := k) (by rw [he.1]; exact bullet_not_header he.2)
        (by rw [he.1]; exact he.2) rfl]
      simp only
      unfold groupsPush
      simp [he.1]
    rw [hstep]
    rw [ih (acc ++ [e]) (fun x hx => hes x (List.mem_cons_of_mem e hx))]
    simp

/-! ## Lemmas: the merge step -/

theorem getLast?_cons_of_ne {c : α} {X : List α} (h : X ≠ []) :
    (c :: X).getLast? = X.getLast? := by
  cases X with
  | nil => exact absurd rfl h
  | cons a t => exact List.getLast?_cons_cons

theorem getLast?_drop {l : List α} {n : Nat} (h : l.drop n ≠ []) :
    (l.drop n).getLast? = l.getLast? := by
  induction l generalizing n with
  | nil => simp at h
  | cons x xs ih =>
    cases n with
    | zero => rfl
    | succ m =>
      rw [List.drop_succ_cons] at h ⊢
      rw [ih h, getLast?_cons_of_ne]
      intro he
      rw [he, List.drop_nil] at h
      exact h rfl

theorem mergeOne_skip {r : Str} {g : Str × List Str} (h : g.2.isEmpty = true) :
    mergeOne r g = r := by
  unfold mergeOne
  rw [if_pos h]

theorem mergeOne_new_nil {r : Str} {g : Str × List Str}
    (hE : g.2.isEmpty = false) (hh : hasDateHeader r g.1 = false)
    (hr : r.isEmpty = true) :
    mergeOne r g = g.1 ++ '\n' :: joinNL g.2 := by
  unfold mergeOne
  rw [if_neg (by simp [hE]), if_neg (by simp [hh]), if_pos hr]

theorem mergeOne_new {r : Str} {g : Str × List Str}
    (hE : g.2.isEmpty = false) (hh : hasDateHeader r g.1 = false)
    (hr : r.isEmpty = false) :
    mergeOne r g = r ++ '\n' :: '\n' :: g.1 ++ '\n' :: joinNL g.2 := by
  unfold mergeOne
  rw [if_neg (by simp [hE]), if_neg (by simp [hh]), if_neg (by simp [hr])]

theorem mergeOne_splice {r : Str} {g : Str × List Str} {di : Nat}
    (hE : g.2.isEmpty = false)
    (hfi : firstIdx (fun l => trimStr l == g.1) (splitNL r) = some di) :
    mergeOne r g =
      joinNL ((splitNL r).take (di + 1 + spliceRun r di) ++ g.2 ++
        (splitNL r).drop (di + 1 + spliceRun r di)) := by
  have hh : hasDateHeader r g.1 = true := hasDateHeader_iff_firstIdx.mpr ⟨di, hfi⟩
  simp only [mergeOne]
  rw [if_neg (by simp [hE]), if_pos hh, hfi]
  rfl

theorem trimStable_joinNL_parts {ls : List Str}
    (h0 : ∃ c h rest, ls = (c :: h) :: rest ∧ isWS c = false)
    (h1 : ∃ T L, ls = T ++ [L] ∧ L ≠ [] ∧
      ∃ c2, L.getLast? = some c2 ∧ isWS c2 = false) :
    TrimStable (joinNL ls) := by
  rcases h0 with ⟨c, h, rest, hls, hcw⟩
  rcases h1 with ⟨T, L, hls2, hLne, c2, hc2, hc2w⟩
  have hhead : (joinNL ls).head? = some c := by
    rw [hls, head?_joinNL _ _ (by simp)]
    rfl
  have hlast : (joinNL ls).getLast? = some c2 := by
    rw [hls2, getLast?_joinNL T L hLne, hc2]
  exact trimStable_of_ends hhead hcw hlast hc2w

theorem events_ne_nil {g : Str × List Str} (hwf : GroupWF g) {e : Str}
    (he : e ∈ g.2) : e ≠ [] := by
  intro hnil
  have := (hwf.2 e he).2
  rw [hnil] at this
  exact absurd this (by decide)

theorem events_last_not_ws {g : Str × List Str} (hwf : GroupWF g)
    (hne : g.2 ≠ []) :
    ∃ c2, (joinNL g.2).getLast? = some c2 ∧ isWS c2 = false := by
  rcases List.eq_nil_or_concat g.2 with h | ⟨E, e, hcat⟩
  · exact absurd h hne
  · have hEL : g.2 = E ++ [e] := by rw [hcat, List.concat_eq_append]
    have hemem : e ∈ g.2 := by rw [hEL]; simp
    have heprops := hwf.2 e hemem
    have hene : e ≠ [] := events_ne_nil hwf hemem
    have hcl : ∃ c2, e.getLast? = some c2 := by
      cases hg : e.getLast?
      · rw [List.getLast?_eq_none_iff] at hg
        exact absurd hg hene
      · exact ⟨_, rfl⟩
    rcases hcl with ⟨c2, hc2⟩
    refine ⟨c2, ?_, ?_⟩
    · rw [hEL, getLast?_joinNL E e hene, hc2]
    · exact trimStable_getLast heprops.1 hc2

theorem mergeOne_trimStable {r : Str} {g : Str × List Str}
    (hr : TrimStable r) (hwf : GroupWF g) : TrimStable (mergeOne r g) := by
  by_cases hE : g.2.isEmpty = true
  · rw [mergeOne_skip hE]; exact hr
  · have hE' : g.2.isEmpty = false := by simpa using hE
    have hEne : g.2 ≠ [] := by simpa using hE
    have hk1 : g.1 ≠ [] := isHeaderCore_ne_nil hwf.1
    rcases events_last_not_ws hwf hEne with ⟨c2, hc2, hc2w⟩
    have hjne : joinNL g.2 ≠ [] := by
      intro hnil
      rw [hnil] at hc2
      simp at hc2
    have hkhead : ∃ ck, g.1.head? = some ck ∧ isWS ck = false := by
      cases hg1 : g.1 with
      | nil => exact absurd hg1 hk1
      | cons x xs =>
        exact ⟨x, rfl, isHeaderCore_not_ws hwf.1 x (by rw [hg1]; simp)⟩
    by_cases hh : hasDateHeader r g.1 = true
    · rcases hasDateHeader_iff_firstIdx.mp hh with ⟨di, hfi⟩
      rw [mergeOne_splice hE' hfi]
      have hrne : r ≠ [] := by
        intro hnil
        rw [hnil, hasDateHeader_nil hwf.1] at hh
        exact absurd hh (by simp)
      rcases splitNL_head_struct hr hrne with ⟨c, h, t, hchead, hcw, hlines⟩
      rcases splitNL_last_struct hr hrne with ⟨T, L, hTL, hLne, hLlast⟩
      apply trimStable_joinNL_parts
      · -- the first kept line is the first line of r
        have harith : di + 1 + spliceRun r di = (di + spliceRun r di) + 1 := by omega
        have htake : (splitNL r).take (di + 1 + spliceRun r di) =
            (c :: h) :: (t.take (di + spliceRun r di)) := by
          rw [hlines, harith, List.take_succ_cons]
        refine ⟨c, h,
          t.take (di + spliceRun r di) ++ g.2 ++
            (splitNL r).drop (di + 1 + spliceRun r di), ?_, hcw⟩
        rw [htake]
        simp
      · -- the last kept line ends like r does
        have hrlast : ∃ cr, r.getLast? = some cr ∧ isWS cr = false := by
          cases hg : r.getLast?
          · rw [List.getLast?_eq_none_iff] at hg
            exact absurd hg hrne
          · exact ⟨_, rfl, trimStable_getLast hr hg⟩
        cases hB : (splitNL r).drop (di + 1 + spliceRun r di) with
        | nil =>
          rcases List.eq_nil_or_concat g.2 with hc | ⟨E, e, hcat⟩
          · exact absurd hc hEne
          · have hEL : g.2 = E ++ [e] := by rw [hcat, List.concat_eq_append]
            have hemem : e ∈ g.2 := by rw [hEL]; simp
            have hene : e ≠ [] := events_ne_nil hwf hemem
            have hcl : ∃ ce, e.getLast? = some ce := by
              cases hg : e.getLast?
              · rw [List.getLast?_eq_none_iff] at hg
                exact absurd hg hene
              · exact ⟨_, rfl⟩
            rcases hcl with ⟨ce, hce⟩
            refine ⟨(splitNL r).take (di + 1 + spliceRun r di) ++ E, e, ?_, hene,
              ce, hce, trimStable_getLast (hwf.2 e hemem).1 hce⟩
            rw [hEL]
            simp
        | cons b bs =>
          rcases hrlast with ⟨cr, hcr, hcrw⟩
          have hdropne : (splitNL r).drop (di + 1 + spliceRun r di) ≠ [] := by
            rw [hB]; simp
          have hlast2 : ((splitNL r).drop (di + 1 + spliceRun r di)).getLast? =
              (splitNL r).getLast? := getLast?_drop hdropne
          have hlinesLast : (splitNL r).getLast? = some L := by
            rw [hTL]
            exact List.getLast?_concat _
          rcases List.eq_nil_or_concat ((splitNL r).drop (di + 1 + spliceRun r di))
            with hc | ⟨B, Lb, hcat⟩
          · exact absurd hc hdropne
          · have hBL : (splitNL r).drop (di + 1 + spliceRun r di) = B ++ [Lb] := by
              rw [hcat, List.concat_eq_append]
            have hLbL : Lb = L := by
              have := hlast2
              rw [hBL, List.getLast?_concat, hlinesLast] at this
              injection this with h1
            refine ⟨(splitNL r).take (di + 1 + spliceRun r di) ++ g.2 ++ B, Lb, ?_,
              by rw [hLbL]; exact hLne, cr, ?_, hcrw⟩
            · rw [← hB, hBL]
              simp
            · rw [hLbL, hLlast, hcr]
    · have hh' : hasDateHeader r g.1 = false := by simpa using hh
      by_cases hrE : r.isEmpty = true
      · rw [mergeOne_new_nil hE' hh' hrE]
        rcases hkhead with ⟨ck, hck, hckw⟩
        apply trimStable_of_ends (a := ck) (b := c2)
        · rw [List.head?_append, hck]
          rfl
        · exact hckw
        · rw [List.getLast?_append, getLast?_cons_of_ne hjne, hc2]
          rfl
        · exact hc2w
      · have hrne : r ≠ [] := by simpa using hrE
        rw [mergeOne_new hE' hh' (by simpa using hrE)]
        have hrhead : ∃ cr, r.head? = some cr ∧ isWS cr = false := by
          cases hg : r.head?
          · rw [List.head?_eq_none_iff] at hg
            exact absurd hg hrne
          · exact ⟨_, rfl, trimStable_head hr hg⟩
        rcases hrhead with ⟨cr, hcr, hcrw⟩
        apply trimStable_of_ends (a := cr) (b := c2)
        · rw [List.head?_append, List.head?_append, hcr]
          rfl
        · exact hcrw
        · rw [List.getLast?_append, getLast?_cons_of_ne hjne, hc2]
          rfl
        · exact hc2w

/-! ## Lemmas: entry-point case equations -/

theorem hasMultiDates_ne_nil {bullets : List Str} (h : hasMultiDates bullets = true) :
    bullets.isEmpty = false := by
  unfold hasMultiDates at h
  rcases List.any_eq_true.mp h with ⟨b, hb, _⟩
  cases bullets with
  | nil => simp at hb
  | cons x xs => rfl

theorem appendToJournal_nil {todayS content : Str} {bullets : List Str}
    (h : bullets.isEmpty = true) : appendToJournal todayS content bullets = content := by
  unfold appendToJournal
  rw [if_pos h]

theorem appendToJournal_multi {todayS content : Str} {bullets : List Str}
    (h : hasMultiDates bullets = true) :
    appendToJournal todayS content bullets = mergeMultiDateContent content bullets := by
  unfold appendToJournal
  rw [if_neg (by simp [hasMultiDates_ne_nil h]), if_pos h]

theorem appendToJournal_single {todayS content : Str} {bullets : List Str}
    (h1 : bullets.isEmpty = false) (h2 : hasMultiDates bullets = false) :
    appendToJournal todayS content bullets = appendSingleDate todayS content bullets := by
  unfold appendToJournal
  rw [if_neg (by simp [h1]), if_neg (by simp [h2])]

theorem overwriteJournal_nil {todayS content : Str} {bullets dates : List Str}
    (h : bullets.isEmpty = true) : overwriteJournal todayS content bullets dates = content := by
  unfold overwriteJournal
  rw [if_pos h]

theorem overwriteJournal_multi {todayS content : Str} {bullets dates : List Str}
    (h : hasMultiDates bullets = true) :
    overwriteJournal todayS content bullets dates =
      overwriteMultiDateContent todayS content bullets dates := by
  unfold overwriteJournal
  rw [if_neg (by simp [hasMultiDates_ne_nil h]), if_pos h]

theorem overwriteJournal_single_ow {todayS content : Str} {bullets dates : List Str}
    (h1 : bullets.isEmpty = false) (h2 : hasMultiDates bullets = false)
    (h3 : dates.any (fun d => d == todayS) = true) :
    overwriteJournal todayS content bullets dates =
      overwriteSingleDate todayS content bullets todayS := by
  unfold overwriteJournal
  rw [if_neg (by simp [h1]), if_neg (by simp [h2]), if_pos h3]

theorem overwriteJournal_single_app {todayS content : Str} {bullets dates : List Str}
    (h1 : bullets.isEmpty = false) (h2 : hasMultiDates bullets = false)
    (h3 : dates.any (fun d => d == todayS) = false) :
    overwriteJournal todayS content bullets dates =
      appendToJournal todayS content bullets := by
  unfold overwriteJournal
  rw [if_neg (by simp [h1]), if_neg (by simp [h2]), if_neg (by simp [h3])]

theorem foldl_fun_ext {β : Type _} {f g : β → α → β} (h : ∀ b a, f b a = g b a) :
    ∀ (l : List α) (b : β), l.foldl f b = l.foldl g b := by
  intro l
  induction l with
  | nil => intro b; rfl
  | cons a as ih =>
    intro b
    rw [List.foldl_cons, List.foldl_cons, h, ih]

theorem appendToJournal_group {todayS r : Str} {g : Str × List Str}
    (hwf : GroupWF g) :
    appendToJournal todayS r (g.1 :: g.2) = mergeOne (trimStr r) g := by
  have hkt : trimStr g.1 = g.1 := isHeaderCore_trimStable hwf.1
  have hmd : hasMultiDates (g.1 :: g.2) = true := by
    unfold hasMultiDates
    rw [List.any_cons, hkt, hwf.1]
    rfl
  rw [appendToJournal_multi hmd]
  unfold mergeMultiDateContent
  rw [parseGroups_single hwf.1 hkt hwf.2]
  rw [List.foldl_cons, List.foldl_nil]

theorem fold_append_eq_fold_merge (todayS : Str) :
    ∀ (gs : List (Str × List Str)), (∀ g ∈ gs, GroupWF g) → ∀ r, TrimStable r →
    gs.foldl (fun r g => if g.2.isEmpty then r
      else appendToJournal todayS r (g.1 :: g.2)) r = gs.foldl mergeOne r := by
  intro gs
  induction gs with
  | nil => intro _ r _; rfl
  | cons g rest ih =>
    intro hwf r hr
    rw [List.foldl_cons, List.foldl_cons]
    by_cases hE : g.2.isEmpty = true
    · rw [if_pos hE, mergeOne_skip hE]
      exact ih (fun x hx => hwf x (List.mem_cons_of_mem g hx)) r hr
    · have hE' : g.2.isEmpty = false := by simpa using hE
      rw [if_neg (by simp [hE']), appendToJournal_group (hwf g (by simp)), hr]
      exact ih (fun x hx => hwf x (List.mem_cons_of_mem g hx)) _
        (mergeOne_trimStable hr (hwf g (by simp)))

/-! ## Claim C1 -/

/-- C1, counterexample.  The claim asserts
`overwriteJournal(doc, bullets, []) == appendToJournal(doc, bullets)` for
every document and every multi-date bullet list.  It fails on the
document `"x\n"` with the multi-date payload `["9.21.2025"]` (a header
with no entries): `appendToJournal` trims the document up front while
the empty-selection `overwriteJournal` path never does, so the outputs
differ in the trailing newline. -/
theorem claim_C1_counterexample :
    hasMultiDates ["9.21.2025".toList] = true ∧
    overwriteJournal ("1.1.2025".toList) ("x\n".toList) ["9.21.2025".toList] [] ≠
      appendToJournal ("1.1.2025".toList) ("x\n".toList) ["9.21.2025".toList] := by
  constructor
  · decide
  · decide

/-- C1 (amended): for every document with no leading or trailing
whitespace (`doc.trim() == doc`), calling the overwrite entry point with
an empty set of dates to overwrite produces output byte-identical to
calling the append entry point on the same document and bullets. -/
theorem claim_C1_amended (todayS doc : Str) (bullets : List Str)
    (hts : TrimStable doc) :
    overwriteJournal todayS doc bullets [] = appendToJournal todayS doc bullets := by
  by_cases hb : bullets.isEmpty = true
  · rw [overwriteJournal_nil hb, appendToJournal_nil hb]
  · have hb' : bullets.isEmpty = false := by simpa using hb
    by_cases hmd : hasMultiDates bullets = true
    · rw [overwriteJournal_multi hmd, appendToJournal_multi hmd]
      unfold overwriteMultiDateContent mergeMultiDateContent
      rw [foldl_fun_ext
        (g := fun r g => if g.2.isEmpty then r else appendToJournal todayS r (g.1 :: g.2))
        ?hfg]
      case hfg =>
        intro r g
        by_cases hE : g.2.isEmpty = true <;> simp [hE]
      rw [fold_append_eq_fold_merge todayS _ (fun g hg => parseGroups_wf g hg) doc hts, hts]
    · have hmd' : hasMultiDates bullets = false := by simpa using hmd
      rw [overwriteJournal_single_app hb' hmd' (by rfl)]

/-- C1 witness: the amended equivalence at a concrete trim-stable
document and multi-date payload. -/
theorem claim_C1_witness :
    TrimStable ("x".toList) ∧
    overwriteJournal ("1.1.2025".toList) ("x".toList)
      ["9.21.2025".toList, "- a".toList] [] =
      appendToJournal ("1.1.2025".toList) ("x".toList)
        ["9.21.2025".toList, "- a".toList] :=
  ⟨by decide, claim_C1_amended ("1.1.2025".toList) ("x".toList)
    ["9.21.2025".toList, "- a".toList] (by decide)⟩

/-! ## Claim C2 -/

theorem overwriteSingleDate_append {todayS content d : Str} {newBullets : List Str}
    (h : firstIdx (fun l => trimStr l == d) (splitNL content) = none) :
    overwriteSingleDate todayS content newBullets d =
      appendToJournal todayS content (d :: newBullets) := by
  simp only [overwriteSingleDate]
  rw [h]

theorem overwriteSingleDate_found {todayS content d : Str} {newBullets : List Str}
    {di : Nat} (h : firstIdx (fun l => trimStr l == d) (splitNL content) = some di) :
    overwriteSingleDate todayS content newBullets d =
      joinNL ((splitNL content).take (di + 1) ++ newBullets ++
        (splitNL content).drop (di + 1 + owRun content di)) := by
  simp only [overwriteSingleDate]
  rw [h]
  rfl

theorem span_eq {r : Str} {di : Nat} (hdi : di < (splitNL r).length) :
    di + 1 + owRun r di = nextHeaderIdx (splitNL r) di := by
  unfold owRun nextHeaderIdx
  cases hfi : firstIdx (fun l => isHeaderCore (trimStr l)) ((splitNL r).drop (di + 1)) with
  | some j =>
    rw [takeWhile_neg_len_of_some hfi]
  | none =>
    rw [takeWhile_neg_len_of_none hfi, List.length_drop]
    show di + 1 + ((splitNL r).length - (di + 1)) = (splitNL r).length
    omega

/-- C2: when the document has a section for `d`, `overwriteSingleDate`
replaces the entire span from just after the first header line for `d`
to just before the next header line (or end of document) with exactly
the new entries; when it has none, the call degrades to an ordinary
append of a new section; and the spec's concrete example holds through
the public overwrite entry point. -/
theorem claim_C2 :
    (∀ (todayS doc d : Str) (entries : List Str) (di : Nat),
      firstIdx (fun l => trimStr l == d) (splitNL doc) = some di →
      overwriteSingleDate todayS doc entries d =
        joinNL ((splitNL doc).take (di + 1) ++ entries ++
          (splitNL doc).drop (nextHeaderIdx (splitNL doc) di))) ∧
    (∀ (todayS doc d : Str) (entries : List Str),
      firstIdx (fun l => trimStr l == d) (splitNL doc) = none →
      overwriteSingleDate todayS doc entries d =
        appendToJournal todayS doc (d :: entries)) ∧
    overwriteJournal ("9.22.2025".toList)
      ("9.21.2025\n- old1\n- old2\n9.20.2025\n- keep".toList)
      ["9.21.2025".toList, "- new1".toList] ["9.21.2025".toList] =
      ("9.21.2025\n- new1\n9.20.2025\n- keep".toList) := by
  refine ⟨?_, ?_, ?_⟩
  · intro todayS doc d entries di h
    rw [overwriteSingleDate_found h, span_eq (firstIdx_some_lt h)]
  · intro todayS doc d entries h
    exact overwriteSingleDate_append h
  · decide

/-- C2 witness: the replacement equation applied at the spec's example
document, with the hypothesis discharged concretely. -/
theorem claim_C2_witness :
    firstIdx (fun l => trimStr l == ("9.21.2025".toList))
      (splitNL ("9.21.2025\n- old1\n- old2\n9.20.2025\n- keep".toList)) = some 0 ∧
    overwriteSingleDate ("9.22.2025".toList)
      ("9.21.2025\n- old1\n- old2\n9.20.2025\n- keep".toList)
      ["- new1".toList] ("9.21.2025".toList) =
      joinNL ((splitNL ("9.21.2025\n- old1\n- old2\n9.20.2025\n- keep".toList)).take 1 ++
        ["- new1".toList] ++
        (splitNL ("9.21.2025\n- old1\n- old2\n9.20.2025\n- keep".toList)).drop
          (nextHeaderIdx (splitNL ("9.21.2025\n- old1\n- old2\n9.20.2025\n- keep".toList)) 0)) :=
  ⟨by decide, claim_C2.1 ("9.22.2025".toList)
    ("9.21.2025\n- old1\n- old2\n9.20.2025\n- keep".toList) ("9.21.2025".toList)
    ["- new1".toList] 0 (by decide)⟩

/-! ## Claim C9 -/

theorem foldl_fun_ext_mem {β : Type _} {f g : β → α → β} {l : List α}
    (h : ∀ a ∈ l, ∀ b, f b a = g b a) : ∀ b, l.foldl f b = l.foldl g b := by
  induction l with
  | nil => intro b; rfl
  | cons a as ih =>
    intro b
    rw [List.foldl_cons, List.foldl_cons, h a (by simp)]
    exact ih (fun x hx => h x (List.mem_cons_of_mem a hx)) _

theorem overwriteSingleDate_today_free {t1 t2 r : Str} {g : Str × List Str}
    (hwf : GroupWF g) :
    overwriteSingleDate t1 r g.2 g.1 = overwriteSingleDate t2 r g.2 g.1 := by
  cases hfi : firstIdx (fun l => trimStr l == g.1) (splitNL r) with
  | some di => rw [overwriteSingleDate_found hfi, overwriteSingleDate_found hfi]
  | none =>
    rw [overwriteSingleDate_append hfi, overwriteSingleDate_append hfi,
      appendToJournal_group hwf, appendToJournal_group hwf]

/-- C9, counterexample.  The entry points are not pure functions of the
document and bullet list alone: for a single-date payload they consult
the ambient current date, so two runs of `appendToJournal` on identical
inputs but on different days produce different output. -/
theorem claim_C9_counterexample :
    appendToJournal ("9.21.2025".toList) ("".toList) ["- a".toList] ≠
      appendToJournal ("9.22.2025".toList) ("".toList) ["- a".toList] := by
  decide

/-- C9 (amended): the entry points are deterministic pure functions of
their inputs together with the ambient current date; for a multi-date
bullet list the current date is never consulted, so `appendToJournal`,
`overwriteJournal` and `getAffectedDates` give identical output on any
two runs (`getExistingDates` takes no date at all). -/
theorem claim_C9_amended (t1 t2 doc : Str) (bullets dates : List Str)
    (hmd : hasMultiDates bullets = true) :
    appendToJournal t1 doc bullets = appendToJournal t2 doc bullets ∧
    overwriteJournal t1 doc bullets dates = overwriteJournal t2 doc bullets dates ∧
    getAffectedDates t1 bullets = getAffectedDates t2 bullets := by
  refine ⟨?_, ?_, ?_⟩
  · rw [appendToJournal_multi hmd, appendToJournal_multi hmd]
  · rw [overwriteJournal_multi hmd, overwriteJournal_multi hmd]
    unfold overwriteMultiDateContent
    apply foldl_fun_ext_mem
    intro g hg r
    by_cases hE : g.2.isEmpty = true
    · simp [hE]
    · have hwf := parseGroups_wf g hg
      by_cases how : dates.any (fun d => d == g.1) = true
      · rw [if_neg hE, if_neg hE, if_pos how, if_pos how]
        exact overwriteSingleDate_today_free hwf
      · rw [if_neg hE, if_neg hE, if_neg how, if_neg how,
          appendToJournal_group hwf, appendToJournal_group hwf]
  · unfold getAffectedDates
    rw [if_pos hmd, if_pos hmd]

/-- C9 witness: run-independence at a concrete multi-date payload. -/
theorem claim_C9_witness :
    hasMultiDates ["9.21.2025".toList, "- a".toList] = true ∧
    (appendToJournal ("1.1.2025".toList) ("".toList)
        ["9.21.2025".toList, "- a".toList] =
      appendToJournal ("2.2.2026".toList) ("".toList)
        ["9.21.2025".toList, "- a".toList] ∧
    overwriteJournal ("1.1.2025".toList) ("".toList)
        ["9.21.2025".toList, "- a".toList] [] =
      overwriteJournal ("2.2.2026".toList) ("".toList)
        ["9.21.2025".toList, "- a".toList] [] ∧
    getAffectedDates ("1.1.2025".toList) ["9.21.2025".toList, "- a".toList] =
      getAffectedDates ("2.2.2026".toList) ["9.21.2025".toList, "- a".toList]) :=
  ⟨by decide, claim_C9_amended ("1.1.2025".toList) ("2.2.2026".toList) ("".toList)
    ["9.21.2025".toList, "- a".toList] [] (by decide)⟩

/-! ## Lemmas: header keys of documents -/

theorem headerKeys_append_newline (u v : Str) :
    headerKeys (u ++ '\n' :: v) = headerKeys u ++ headerKeys v := by
  unfold headerKeys
  rw [splitNL_append_newline, List.map_append, List.filter_append]

theorem headerKeys_join_lines {ls : List Str} (hnl : ∀ l ∈ ls, '\n' ∉ l)
    (hne : ls ≠ []) :
    headerKeys (joinNL ls) = (ls.map trimStr).filter isHeaderCore := by
  unfold headerKeys
  rw [split_join hnl hne]

theorem filter_header_events {E : List Str}
    (hE : ∀ e ∈ E, trimStr e = e ∧ isBulletStart e = true) :
    (E.map trimStr).filter isHeaderCore = [] := by
  rw [List.filter_eq_nil_iff]
  intro x hx
  rcases List.mem_map.mp hx with ⟨e, he, hxe⟩
  subst hxe
  rw [(hE e he).1]
  simp [bullet_not_header (hE e he).2]

theorem headerKeys_dropWhile (s : Str) :
    headerKeys (s.dropWhile isWS) = headerKeys s := by
  induction s with
  | nil => rfl
  | cons c cs ih =>
    by_cases hw : isWS c = true
    · rw [List.dropWhile_cons, if_pos hw, ih]
      by_cases hn : c = '\n'
      · subst hn
        unfold headerKeys
        rw [splitNL_cons_newline]
        simp only [List.map_cons, List.filter_cons]
        rw [show isHeaderCore (trimStr []) = false from rfl]
        simp
      · unfold headerKeys
        rw [splitNL_cons_of_ne c cs hn]
        cases hs : splitNL cs with
        | nil => exact absurd hs (splitNL_ne_nil cs)
        | cons h t =>
          simp only [List.headI, List.tail, List.map_cons, List.filter_cons]
          rw [trimStr_cons_ws hw]
    · rw [List.dropWhile_cons, if_neg (by simp [hw])]

theorem splitNL_append_singleton {u : Str} {c : Char} (hc : c ≠ '\n') :
    splitNL (u ++ [c]) =
      (splitNL u).dropLast ++ [((splitNL u).getLast?.getD []) ++ [c]] := by
  induction u with
  | nil => simp [splitNL, hc]
  | cons x xs ih =>
    by_cases hx : x = '\n'
    · subst hx
      rw [List.cons_append, splitNL_cons_newline, splitNL_cons_newline, ih]
      rw [List.dropLast_cons_of_ne_nil (splitNL_ne_nil xs),
        getLast?_cons_of_ne (splitNL_ne_nil xs)]
      simp
    · rw [List.cons_append, splitNL_cons_of_ne x _ hx, splitNL_cons_of_ne x xs hx, ih]
      cases hs : splitNL xs with
      | nil => exact absurd hs (splitNL_ne_nil xs)
      | cons h t =>
        cases t with
        | nil => simp [List.headI]
        | cons h2 t2 =>
          rw [List.dropLast_cons₂]
          simp only [List.headI, List.tail]
          rw [List.dropLast_cons₂,
            getLast?_cons_of_ne (c := h) (X := h2 :: t2) (by simp),
            getLast?_cons_of_ne (c := x :: h) (X := h2 :: t2) (by simp)]
          simp

theorem headerKeys_append_ws {u : Str} {c : Char} (hw : isWS c = true) :
    headerKeys (u ++ [c]) = headerKeys u := by
  by_cases hn : c = '\n'
  · subst hn
    have : u ++ ['\n'] = u ++ '\n' :: ([] : Str) := rfl
    rw [this, headerKeys_append_newline]
    unfold headerKeys
    simp only [splitNL, List.map_cons, List.map_nil, List.filter_cons]
    rw [show isHeaderCore (trimStr []) = false from rfl]
    simp
  · unfold headerKeys
    rw [splitNL_append_singleton hn]
    have hdec : splitNL u = (splitNL u).dropLast ++ [(splitNL u).getLast?.getD []] := by
      cases hL : splitNL u with
      | nil => exact absurd hL (splitNL_ne_nil u)
      | cons h t =>
        rw [List.getLast?_eq_getLast (h :: t) (by simp)]
        simp only [Option.getD_some]
        exact (List.dropLast_append_getLast (by simp)).symm
    conv_rhs => rw [hdec]
    rw [List.map_append, List.map_append, List.filter_append, List.filter_append]
    congr 1
    simp only [List.map_cons, List.map_nil]
    rw [trimStr_append_ws hw]

theorem headerKeys_dropLastWhile (u : Str) :
    headerKeys ((u.reverse.dropWhile isWS).reverse) = headerKeys u := by
  induction u using List.reverseRecOn with
  | nil => rfl
  | append_singleton xs c ih =>
    by_cases hw : isWS c = true
    · rw [List.reverse_append]
      simp only [List.reverse_cons, List.reverse_nil, List.nil_append, List.singleton_append]
      rw [List.dropWhile_cons, if_pos hw, ih, headerKeys_append_ws hw]
    · rw [List.reverse_append]
      simp only [List.reverse_cons, List.reverse_nil, List.nil_append, List.singleton_append]
      rw [List.dropWhile_cons, if_neg (by simp [hw])]
      simp

theorem headerKeys_trim (s : Str) : headerKeys (trimStr s) = headerKeys s := by
  unfold trimStr
  rw [headerKeys_dropLastWhile, headerKeys_dropWhile]

theorem headerKeys_of_noNL_header {k : Str} (hk : isHeaderCore k = true) :
    headerKeys k = [k] := by
  unfold headerKeys
  rw [splitNL_of_noNL (isHeaderCore_noNL hk)]
  simp only [List.map_cons, List.map_nil, List.filter_cons, List.filter_nil]
  rw [isHeaderCore_trimStable hk, if_pos hk]

theorem headerKeys_nil_str : headerKeys [] = [] := by
  unfold headerKeys
  simp only [splitNL, List.map_cons, List.map_nil, List.filter_cons, List.filter_nil]
  rw [show isHeaderCore (trimStr []) = false from rfl]
  simp

theorem headerKeys_events {g : Str × List Str} (hwf : GroupWF g)
    (hnl : ∀ e ∈ g.2, '\n' ∉ e) (hne : g.2 ≠ []) :
    headerKeys (joinNL g.2) = [] := by
  rw [headerKeys_join_lines hnl hne]
  exact filter_header_events hwf.2

theorem headerKeys_mergeOne {r : Str} {g : Str × List Str} (hwf : GroupWF g)
    (hnl : ∀ e ∈ g.2, '\n' ∉ e) :
    headerKeys (mergeOne r g) =
      headerKeys r ++
        (if g.2.isEmpty = false ∧ hasDateHeader r g.1 = false then [g.1] else []) := by
  by_cases hE : g.2.isEmpty = true
  · rw [mergeOne_skip hE, if_neg (by simp [hE])]
    simp
  · have hE' : g.2.isEmpty = false := by simpa using hE
    have hEne : g.2 ≠ [] := by simpa using hE
    by_cases hh : hasDateHeader r g.1 = true
    · rcases hasDateHeader_iff_firstIdx.mp hh with ⟨di, hfi⟩
      rw [mergeOne_splice hE' hfi, if_neg (by simp [hh])]
      have hAnl : ∀ l ∈ (splitNL r).take (di + 1 + spliceRun r di), '\n' ∉ l :=
        fun l hl => noNL_of_mem_splitNL ((List.take_sublist _ _).mem hl)
      have hBnl : ∀ l ∈ (splitNL r).drop (di + 1 + spliceRun r di), '\n' ∉ l :=
        fun l hl => noNL_of_mem_splitNL ((List.drop_sublist _ _).mem hl)
      have hallnl : ∀ l ∈ (splitNL r).take (di + 1 + spliceRun r di) ++ g.2 ++
          (splitNL r).drop (di + 1 + spliceRun r di), '\n' ∉ l := by
        intro l hl
        rcases List.mem_append.mp hl with h1 | h1
        · rcases List.mem_append.mp h1 with h2 | h2
          · exact hAnl l h2
          · exact hnl l h2
        · exact hBnl l h1
      have hlne : (splitNL r).take (di + 1 + spliceRun r di) ++ g.2 ++
          (splitNL r).drop (di + 1 + spliceRun r di) ≠ [] := by
        intro hcon
        rcases List.append_eq_nil.mp hcon with ⟨h1, _⟩
        rcases List.append_eq_nil.mp h1 with ⟨_, h2⟩
        exact hEne h2
      rw [headerKeys_join_lines hallnl hlne]
      rw [List.map_append, List.map_append, List.filter_append, List.filter_append]
      rw [filter_header_events hwf.2]
      unfold headerKeys
      conv_rhs => rw [← List.take_append_drop (di + 1 + spliceRun r di) (splitNL r)]
      rw [List.map_append, List.filter_append]
      simp
    · have hh' : hasDateHeader r g.1 = false := by simpa using hh
      rw [if_pos ⟨hE', hh'⟩]
      by_cases hrE : r.isEmpty = true
      · have hrnil : r = [] := by simpa using hrE
        rw [mergeOne_new_nil hE' hh' hrE, hrnil]
        rw [headerKeys_append_newline, headerKeys_nil_str,
          headerKeys_of_noNL_header hwf.1, headerKeys_events hwf hnl hEne]
        simp
      · rw [mergeOne_new hE' hh' (by simpa using hrE)]
        have hassoc : (r ++ '\n' :: '\n' :: g.1 ++ '\n' :: joinNL g.2) =
            r ++ '\n' :: (('\n' :: g.1) ++ '\n' :: joinNL g.2) := by
          simp
        rw [hassoc, headerKeys_append_newline]
        have hassoc2 : (('\n' :: g.1) ++ '\n' :: joinNL g.2) =
            ([] : Str) ++ '\n' :: (g.1 ++ '\n' :: joinNL g.2) := by simp
        rw [hassoc2, headerKeys_append_newline, headerKeys_append_newline,
          headerKeys_nil_str, headerKeys_of_noNL_header hwf.1,
          headerKeys_events hwf hnl hEne]
        simp

theorem parseStep_keys_nodup {st : Option Str × List (Str × List Str)} {b : Str}
    (h : (st.2.map (fun g => g.1)).Nodup) :
    ((parseStep st b).2.map (fun g => g.1)).Nodup := by
  by_cases hh : isHeaderCore (trimStr b) = true
  · rw [parseStep_header hh]
    simp only
    unfold groupsAdd
    split
    · exact h
    · rename_i hany
      rw [List.map_append, List.nodup_append]
      refine ⟨h, by simp, ?_⟩
      intro x hx hx2
      simp at hx2
      subst hx2
      apply hany
      rcases List.mem_map.mp hx with ⟨g, hg, hgk⟩
      exact List.any_eq_true.mpr ⟨g, hg, by rw [beq_iff_eq]; exact hgk⟩
  · by_cases hbul : isBulletStart (trimStr b) = true
    · cases hk : st.1 with
      | none => rw [parseStep_skip_nokey (by simpa using hh) hbul hk]; exact h
      | some k =>
        rw [parseStep_push (by simpa using hh) hbul hk]
        simp only
        rw [groupsPush_keys]
        exact h
    · rw [parseStep_skip (by simpa using hh) (by simpa using hbul)]
      exact h

theorem parseGroups_keys_nodup {bullets : List Str} :
    ((parseGroups bullets).map (fun g => g.1)).Nodup := by
  unfold parseGroups
  suffices haux : ∀ (bs : List Str) (st : Option Str × List (Str × List Str)),
      (st.2.map (fun g => g.1)).Nodup →
      ((bs.foldl parseStep st).2.map (fun g => g.1)).Nodup by
    exact haux bullets (none, []) (by simp)
  intro bs
  induction bs with
  | nil => intro st h; exact h
  | cons b rest ih =>
    intro st h
    rw [List.foldl_cons]
    exact ih (parseStep st b) (parseStep_keys_nodup h)

theorem hasDateHeader_congr_keys {r r' k : Str} (hk : isHeaderCore k = true)
    (h : headerKeys r' = headerKeys r ++ Δ) (hno : k ∉ Δ) :
    hasDateHeader r' k = hasDateHeader r k := by
  cases h1 : hasDateHeader r k
  · cases h2 : hasDateHeader r' k
    · rfl
    · exfalso
      have hmem := (hasDateHeader_iff_mem hk).mp h2
      rw [h] at hmem
      rcases List.mem_append.mp hmem with h3 | h3
      · rw [(hasDateHeader_iff_mem hk).mpr h3] at h1
        exact absurd h1 (by simp)
      · exact hno h3
  · have hmem := (hasDateHeader_iff_mem hk).mp h1
    rw [(hasDateHeader_iff_mem hk).mpr (by rw [h]; exact List.mem_append_left _ hmem)]

theorem headerKeys_merge_fold :
    ∀ (gs : List (Str × List Str)) (r : Str),
      (∀ g ∈ gs, GroupWF g) → (∀ g ∈ gs, ∀ e ∈ g.2, '\n' ∉ e) →
      ((gs.map (fun g => g.1)).Nodup) →
      headerKeys (gs.foldl mergeOne r) =
        headerKeys r ++
          (gs.filter (fun g => !g.2.isEmpty && !hasDateHeader r g.1)).map (fun g => g.1) := by
  intro gs
  induction gs with
  | nil => intro r _ _ _; simp
  | cons g rest ih =>
    intro r hwf hnl hnd
    rw [List.foldl_cons]
    have hwfg := hwf g (by simp)
    have hmo := headerKeys_mergeOne (r := r) hwfg (hnl g (by simp))
    have hknotin : g.1 ∉ rest.map (fun g => g.1) := by
      rw [List.map_cons, List.nodup_cons] at hnd
      exact hnd.1
    have hcongr : ∀ g' ∈ rest, (!g'.2.isEmpty && !hasDateHeader (mergeOne r g) g'.1) =
        (!g'.2.isEmpty && !hasDateHeader r g'.1) := by
      intro g' hg'
      have hne : g'.1 ∉ (if g.2.isEmpty = false ∧ hasDateHeader r g.1 = false
          then [g.1] else []) := by
        split
        · intro hmem
          simp at hmem
          exact hknotin (hmem ▸ List.mem_map_of_mem _ hg')
        · simp
      rw [hasDateHeader_congr_keys (hwf g' (List.mem_cons_of_mem g hg')).1 hmo hne]
    rw [ih (mergeOne r g) (fun x hx => hwf x (List.mem_cons_of_mem g hx))
      (fun x hx => hnl x (List.mem_cons_of_mem g hx))
      (by rw [List.map_cons, List.nodup_cons] at hnd; exact hnd.2)]
    rw [List.filter_congr hcongr, hmo, List.filter_cons]
    by_cases hcond : g.2.isEmpty = false ∧ hasDateHeader r g.1 = false
    · rw [if_pos ⟨hcond.1, hcond.2⟩, if_pos (by simp [hcond.1, hcond.2])]
      simp
    · rw [if_neg hcond, if_neg ?hc]
      · simp
      case hc =>
        intro hcon
        simp only [Bool.and_eq_true, Bool.not_eq_true'] at hcon
        exact hcond ⟨hcon.1, hcon.2⟩

theorem hasDateHeader_trim {s k : Str} (hk : isHeaderCore k = true) :
    hasDateHeader (trimStr s) k = hasDateHeader s k :=
  hasDateHeader_congr_keys (Δ := []) hk (by rw [headerKeys_trim, List.append_nil])
    (by simp)

/-! ## Claim C5 -/

/-- C5: append never reorders or removes the document's existing header
lines — the result's header keys are exactly the document's header keys
followed by the new groups' keys in group order (a group contributes a
new trailing section exactly when it has entries and its date has no
existing header) — and appending 9.21.2025 then 9.20.2025 to an empty
document yields the sections in insertion order, not calendar order. -/
theorem claim_C5 :
    (∀ (todayS doc : Str) (bullets : List Str), NoNewlines bullets →
      hasMultiDates bullets = true →
      headerKeys (appendToJournal todayS doc bullets) =
        headerKeys doc ++ newSectionKeys doc bullets) ∧
    appendToJournal ("9.22.2025".toList)
      (appendToJournal ("9.22.2025".toList) ("".toList)
        ["9.21.2025".toList, "- A".toList])
      ["9.20.2025".toList, "- B".toList] =
      ("9.21.2025\n- A\n\n9.20.2025\n- B".toList) := by
  constructor
  · intro todayS doc bullets hnl hmd
    rw [appendToJournal_multi hmd]
    unfold mergeMultiDateContent
    rw [headerKeys_merge_fold (parseGroups bullets) (trimStr doc)
      (fun g hg => parseGroups_wf g hg) (parseGroups_events_noNL hnl)
      parseGroups_keys_nodup, headerKeys_trim]
    unfold newSectionKeys
    congr 1
    apply congrArg
    apply List.filter_congr
    intro g hg
    rw [hasDateHeader_trim (parseGroups_wf g hg).1]
  · decide

/-- C5 witness: the header-key equation at a concrete document and
payload. -/
theorem claim_C5_witness :
    NoNewlines ["9.21.2025".toList, "- A".toList] ∧
    hasMultiDates ["9.21.2025".toList, "- A".toList] = true ∧
    headerKeys (appendToJournal ("1.1.2025".toList) ("9.20.2025\n- k".toList)
      ["9.21.2025".toList, "- A".toList]) =
      headerKeys ("9.20.2025\n- k".toList) ++
        newSectionKeys ("9.20.2025\n- k".toList)
          ["9.21.2025".toList, "- A".toList] :=
  ⟨by decide, by decide, claim_C5.1 ("1.1.2025".toList) ("9.20.2025\n- k".toList)
    ["9.21.2025".toList, "- A".toList] (by decide) (by decide)⟩

/-! ## Lemmas: header-key extension -/

theorem count_le_one_of_nodup {l : List Str} (h : l.Nodup) (a : Str) :
    l.count a ≤ 1 := by
  induction l with
  | nil => simp
  | cons x xs ih =>
    rw [List.nodup_cons] at h
    rw [List.count_cons]
    by_cases hx : x = a
    · subst hx
      have : xs.count x = 0 := List.count_eq_zero.mpr h.1
      simp [this]
    · have : (x == a) = false := by simp [hx]
      rw [this]
      simpa using ih h.2

theorem HKExt_refl (r : Str) : HKExt r r :=
  ⟨[], by simp, by simp, by simp⟩

theorem HKExt_trans {r s t : Str} (h1 : HKExt r s) (h2 : HKExt s t) : HKExt r t := by
  rcases h1 with ⟨d1, he1, hn1, hp1⟩
  rcases h2 with ⟨d2, he2, hn2, hp2⟩
  refine ⟨d1 ++ d2, by rw [he2, he1, List.append_assoc], ?_, ?_⟩
  · rw [List.nodup_append]
    refine ⟨hn1, hn2, ?_⟩
    intro x hx1 hx2
    have hxh := (hp2 x hx2).1
    have hin : x ∈ headerKeys s := by
      rw [he1]
      exact List.mem_append_right _ hx1
    have := (hasDateHeader_iff_mem hxh).mpr hin
    rw [(hp2 x hx2).2] at this
    exact absurd this (by simp)
  · intro x hx
    rcases List.mem_append.mp hx with h1 | h1
    · exact hp1 x h1
    · refine ⟨(hp2 x h1).1, ?_⟩
      cases hd : hasDateHeader r x
      · rfl
      · exfalso
        have hin : x ∈ headerKeys s := by
          rw [he1]
          exact List.mem_append_left _ ((hasDateHeader_iff_mem (hp2 x h1).1).mp hd)
        have := (hasDateHeader_iff_mem (hp2 x h1).1).mpr hin
        rw [(hp2 x h1).2] at this
        exact absurd this (by simp)

theorem HKExt_count {r res k : Str} (h : HKExt r res) (hk : isHeaderCore k = true) :
    (1 ≤ countKey r k → countKey res k = countKey r k) ∧
    (countKey r k = 0 → countKey res k ≤ 1) := by
  rcases h with ⟨d, he, hn, hp⟩
  unfold countKey
  rw [he, List.count_append]
  constructor
  · intro h1
    have hmem : k ∈ headerKeys r := by
      by_contra hno
      have h2 := List.count_eq_zero.mpr hno
      omega
    have hnd : k ∉ d := by
      intro hkd
      have h3 := (hp k hkd).2
      rw [(hasDateHeader_iff_mem hk).mpr hmem] at h3
      exact absurd h3 (by simp)
    rw [List.count_eq_zero.mpr hnd]
    omega
  · intro h0
    rw [h0]
    simpa using count_le_one_of_nodup hn k

theorem HKExt_of_trim {r res : Str} (h : HKExt (trimStr r) res) : HKExt r res := by
  rcases h with ⟨d, he, hn, hp⟩
  refine ⟨d, by rw [he, headerKeys_trim], hn, ?_⟩
  intro x hx
  refine ⟨(hp x hx).1, ?_⟩
  rw [← hasDateHeader_trim (hp x hx).1]
  exact (hp x hx).2

theorem HKExt_mergeOne {r : Str} {g : Str × List Str} (hwf : GroupWF g)
    (hnl : ∀ e ∈ g.2, '\n' ∉ e) : HKExt r (mergeOne r g) := by
  refine ⟨if g.2.isEmpty = false ∧ hasDateHeader r g.1 = false then [g.1] else [],
    headerKeys_mergeOne hwf hnl, ?_, ?_⟩
  · split <;> simp
  · split
    · rename_i hc
      intro x hx
      simp at hx
      subst hx
      exact ⟨hwf.1, hc.2⟩
    · simp

theorem take_takeWhile_len (p : α → Bool) (l : List α) :
    l.take ((l.takeWhile p).length) = l.takeWhile p := by
  induction l with
  | nil => rfl
  | cons x xs ih =>
    rw [List.takeWhile_cons]
    split
    · rw [List.length_cons, List.take_succ_cons, ih]
    · rfl

theorem headerKeys_cons_newline (v : Str) : headerKeys ('\n' :: v) = headerKeys v := by
  have h : ('\n' :: v) = ([] : Str) ++ '\n' :: v := rfl
  rw [h, headerKeys_append_newline, headerKeys_nil_str]
  simp

theorem headerKeys_joinNL_nonheader {bs : List Str} (hne : bs ≠ [])
    (hnl : ∀ b ∈ bs, '\n' ∉ b) (hnh : ∀ b ∈ bs, isHeaderCore (trimStr b) = false) :
    headerKeys (joinNL bs) = [] := by
  rw [headerKeys_join_lines hnl hne, List.filter_eq_nil_iff]
  intro x hx
  rcases List.mem_map.mp hx with ⟨b, hb, hxb⟩
  subst hxb
  simp [hnh b hb]

theorem headerKeys_owSingle_found {todayS content d : Str} {newBullets : List Str}
    {di : Nat} (hfi : firstIdx (fun l => trimStr l == d) (splitNL content) = some di)
    (hnb : ∀ b ∈ newBullets, '\n' ∉ b ∧ isHeaderCore (trimStr b) = false) :
    headerKeys (overwriteSingleDate todayS content newBullets d) = headerKeys content := by
  rw [overwriteSingleDate_found hfi]
  have hAnl : ∀ l ∈ (splitNL content).take (di + 1), '\n' ∉ l :=
    fun l hl => noNL_of_mem_splitNL ((List.take_sublist _ _).mem hl)
  have hBnl : ∀ l ∈ (splitNL content).drop (di + 1 + owRun content di), '\n' ∉ l :=
    fun l hl => noNL_of_mem_splitNL ((List.drop_sublist _ _).mem hl)
  have hallnl : ∀ l ∈ (splitNL content).take (di + 1) ++ newBullets ++
      (splitNL content).drop (di + 1 + owRun content di), '\n' ∉ l := by
    intro l hl
    rcases List.mem_append.mp hl with h1 | h1
    · rcases List.mem_append.mp h1 with h2 | h2
      · exact hAnl l h2
      · exact (hnb l h2).1
    · exact hBnl l h1
  have hAne : (splitNL content).take (di + 1) ≠ [] := by
    have hlen : di < (splitNL content).length := firstIdx_some_lt hfi
    intro hcon
    have h0 := congrArg List.length hcon
    rw [List.length_take] at h0
    simp only [List.length_nil] at h0
    rcases Nat.min_eq_zero_iff.mp h0 with h | h
    · omega
    · omega
  have hlne : (splitNL content).take (di + 1) ++ newBullets ++
      (splitNL content).drop (di + 1 + owRun content di) ≠ [] := by
    intro hcon
    rcases List.append_eq_nil.mp hcon with ⟨h1, _⟩
    rcases List.append_eq_nil.mp h1 with ⟨h2, _⟩
    exact hAne h2
  rw [headerKeys_join_lines hallnl hlne]
  rw [List.map_append, List.map_append, List.filter_append, List.filter_append]
  have hmid : ((((splitNL content).drop (di + 1)).take (owRun content di)).map
      trimStr).filter isHeaderCore = [] := by
    rw [List.filter_eq_nil_iff]
    intro x hx
    rcases List.mem_map.mp hx with ⟨l, hl, hxl⟩
    subst hxl
    have : l ∈ ((splitNL content).drop (di + 1)).takeWhile
        (fun l => !isHeaderCore (trimStr l)) := by
      have heq : ((splitNL content).drop (di + 1)).take (owRun content di) =
          ((splitNL content).drop (di + 1)).takeWhile
            (fun l => !isHeaderCore (trimStr l)) := by
        unfold owRun
        exact take_takeWhile_len _ _
      rw [← heq]
      exact hl
    have := List.mem_takeWhile_imp this
    simp at this
    simp [this]
  have hnewb : (newBullets.map trimStr).filter isHeaderCore = [] := by
    rw [List.filter_eq_nil_iff]
    intro x hx
    rcases List.mem_map.mp hx with ⟨b, hb, hxb⟩
    subst hxb
    simp [(hnb b hb).2]
  rw [hnewb]
  unfold headerKeys
  conv_rhs => rw [← List.take_append_drop (di + 1) (splitNL content)]
  conv_rhs =>
    rw [← List.take_append_drop (owRun content di) ((splitNL content).drop (di + 1))]
  rw [List.drop_drop]
  rw [List.map_append, List.map_append, List.filter_append, List.filter_append, hmid]
  simp

theorem HKExt_merge_fold :
    ∀ (gs : List (Str × List Str)) (r : Str), (∀ g ∈ gs, GroupWF g) →
    (∀ g ∈ gs, ∀ e ∈ g.2, '\n' ∉ e) → HKExt r (gs.foldl mergeOne r) := by
  intro gs
  induction gs with
  | nil => intro r _ _; exact HKExt_refl r
  | cons g rest ih =>
    intro r hwf hnl
    rw [List.foldl_cons]
    exact HKExt_trans (HKExt_mergeOne (hwf g (by simp)) (hnl g (by simp)))
      (ih (mergeOne r g) (fun x hx => hwf x (List.mem_cons_of_mem g hx))
        (fun x hx => hnl x (List.mem_cons_of_mem g hx)))

theorem HKExt_append_multi {todayS content : Str} {bullets : List Str}
    (hmd : hasMultiDates bullets = true) (hnl : NoNewlines bullets) :
    HKExt content (appendToJournal todayS content bullets) := by
  rw [appendToJournal_multi hmd]
  unfold mergeMultiDateContent
  exact HKExt_of_trim (HKExt_merge_fold (parseGroups bullets) (trimStr content)
    (fun g hg => parseGroups_wf g hg) (parseGroups_events_noNL hnl))

theorem trim_ne_nil_of_hasDate {content t : Str} (ht : isHeaderCore t = true)
    (h : hasDateHeader content t = true) : trimStr content ≠ [] := by
  intro hnil
  rw [← hasDateHeader_trim ht, hnil, hasDateHeader_nil ht] at h
  exact absurd h (by simp)

theorem HKExt_appendSingleDate {todayS content : Str} {bullets : List Str}
    (ht : isHeaderCore todayS = true) (hne : bullets ≠ [])
    (hnl : ∀ b ∈ bullets, '\n' ∉ b)
    (hnh : ∀ b ∈ bullets, isHeaderCore (trimStr b) = false) :
    HKExt content (appendSingleDate todayS content bullets) := by
  have hjb : headerKeys (joinNL bullets) = [] :=
    headerKeys_joinNL_nonheader hne hnl hnh
  simp only [appendSingleDate]
  by_cases hhd : hasDateHeader content todayS = true
  · have hrne : trimStr content ≠ [] := trim_ne_nil_of_hasDate ht hhd
    have hlastne : ((trimStr content).getLast? == some '\n') = false := by
      cases hg : (trimStr content).getLast? with
      | none => rfl
      | some c =>
        have := getLast?_trimStr_not_ws hg
        have hcne : c ≠ '\n' := by
          intro he
          subst he
          exact absurd this (by decide)
        simp [hcne]
    have hie : (trimStr content).isEmpty = false := by
      simpa [List.isEmpty_iff] using hrne
    have hc2 : (!(trimStr content).isEmpty &&
        !((trimStr content).getLast? == some '\n')) = true := by
      rw [hie, hlastne]
      rfl
    rw [hhd, if_neg (by simp), if_pos hc2]
    have hres : (trimStr content ++ ['\n']) ++ joinNL bullets =
        trimStr content ++ '\n' :: joinNL bullets := by simp
    rw [hres]
    refine ⟨[], ?_, by simp, by simp⟩
    rw [headerKeys_append_newline, headerKeys_trim, hjb]
  · have hhd' : hasDateHeader content todayS = false := by simpa using hhd
    rw [hhd']
    simp only [Bool.not_false, if_true]
    by_cases hre : (trimStr content).isEmpty = true
    · have hrnil : trimStr content = [] := by simpa using hre
      rw [if_pos hre, hrnil]
      have hres : (([] : Str) ++ todayS ++ ['\n']) ++ joinNL bullets =
          todayS ++ '\n' :: joinNL bullets := by simp
      rw [hres]
      refine ⟨[todayS], ?_, by simp, ?_⟩
      · rw [headerKeys_append_newline, headerKeys_of_noNL_header ht, hjb]
        have : headerKeys content = [] := by
          rw [← headerKeys_trim, hrnil, headerKeys_nil_str]
        rw [this]
        simp
      · intro x hx
        simp at hx
        subst hx
        exact ⟨ht, hhd'⟩
    · rw [if_neg hre]
      have hres : ((trimStr content ++ '\n' :: '\n' :: []) ++ todayS ++ ['\n']) ++
          joinNL bullets =
          trimStr content ++ '\n' :: ('\n' :: (todayS ++ '\n' :: joinNL bullets)) := by
        simp
      rw [hres]
      refine ⟨[todayS], ?_, by simp, ?_⟩
      · rw [headerKeys_append_newline, headerKeys_cons_newline,
          headerKeys_append_newline, headerKeys_of_noNL_header ht, hjb,
          headerKeys_trim]
        simp
      · intro x hx
        simp at hx
        subst hx
        exact ⟨ht, hhd'⟩

theorem nonheader_of_not_multi {bullets : List Str}
    (h : hasMultiDates bullets = false) :
    ∀ b ∈ bullets, isHeaderCore (trimStr b) = false := by
  intro b hb
  have := List.any_eq_false.mp h b hb
  simpa using this

theorem HKExt_appendToJournal (todayS content : Str) (bullets : List Str)
    (ht : isHeaderCore todayS = true) (hnl : NoNewlines bullets) :
    HKExt content (appendToJournal todayS content bullets) := by
  by_cases hb : bullets.isEmpty = true
  · rw [appendToJournal_nil hb]
    exact HKExt_refl content
  · have hb' : bullets.isEmpty = false := by simpa using hb
    by_cases hmd : hasMultiDates bullets = true
    · exact HKExt_append_multi hmd hnl
    · rw [appendToJournal_single hb' (by simpa using hmd)]
      exact HKExt_appendSingleDate ht (by simpa using hb) hnl
        (nonheader_of_not_multi (by simpa using hmd))

theorem HKExt_owSingle_raw {todayS content d : Str} {newBullets : List Str}
    (hd : isHeaderCore d = true)
    (hnb : ∀ b ∈ newBullets, '\n' ∉ b ∧ isHeaderCore (trimStr b) = false) :
    HKExt content (overwriteSingleDate todayS content newBullets d) := by
  cases hfi : firstIdx (fun l => trimStr l == d) (splitNL content) with
  | some di =>
    refine ⟨[], ?_, by simp, by simp⟩
    rw [headerKeys_owSingle_found hfi hnb, List.append_nil]
  | none =>
    rw [overwriteSingleDate_append hfi]
    have hmd : hasMultiDates (d :: newBullets) = true := by
      unfold hasMultiDates
      rw [List.any_cons, isHeaderCore_trimStable hd, hd]
      rfl
    exact HKExt_append_multi hmd (by
      intro b hb
      rcases List.mem_cons.mp hb with h1 | h1
      · subst h1; exact isHeaderCore_noNL hd
      · exact (hnb b h1).1)

theorem HKExt_owSingle_events {todayS r : Str} {g : Str × List Str}
    (hwf : GroupWF g) (hnl : ∀ e ∈ g.2, '\n' ∉ e) :
    HKExt r (overwriteSingleDate todayS r g.2 g.1) :=
  HKExt_owSingle_raw hwf.1 (fun e he => ⟨hnl e he, by
    rw [(hwf.2 e he).1]
    exact bullet_not_header (hwf.2 e he).2⟩)

theorem HKExt_ow_fold (todayS : Str) (dates : List Str) :
    ∀ (gs : List (Str × List Str)) (r : Str), (∀ g ∈ gs, GroupWF g) →
    (∀ g ∈ gs, ∀ e ∈ g.2, '\n' ∉ e) →
    HKExt r (gs.foldl (fun r g =>
      if g.2.isEmpty then r
      else if dates.any (fun d => d == g.1) then overwriteSingleDate todayS r g.2 g.1
      else appendToJournal todayS r (g.1 :: g.2)) r) := by
  intro gs
  induction gs with
  | nil => intro r _ _; exact HKExt_refl r
  | cons g rest ih =>
    intro r hwf hnl
    rw [List.foldl_cons]
    refine HKExt_trans (s := if g.2.isEmpty then r
      else if dates.any (fun d => d == g.1) then overwriteSingleDate todayS r g.2 g.1
      else appendToJournal todayS r (g.1 :: g.2)) ?_
      (ih _ (fun x hx => hwf x (List.mem_cons_of_mem g hx))
        (fun x hx => hnl x (List.mem_cons_of_mem g hx)))
    by_cases hE : g.2.isEmpty = true
    · rw [if_pos hE]
      exact HKExt_refl r
    · rw [if_neg hE]
      by_cases how : dates.any (fun d => d == g.1) = true
      · rw [if_pos how]
        exact HKExt_owSingle_events (hwf g (by simp)) (hnl g (by simp))
      · rw [if_neg how, appendToJournal_group (hwf g (by simp))]
        exact HKExt_of_trim (HKExt_mergeOne (hwf g (by simp)) (hnl g (by simp)))

theorem HKExt_overwriteJournal (todayS content : Str) (bullets dates : List Str)
    (ht : isHeaderCore todayS = true) (hnl : NoNewlines bullets) :
    HKExt content (overwriteJournal todayS content bullets dates) := by
  by_cases hb : bullets.isEmpty = true
  · rw [overwriteJournal_nil hb]
    exact HKExt_refl content
  · have hb' : bullets.isEmpty = false := by simpa using hb
    by_cases hmd : hasMultiDates bullets = true
    · rw [overwriteJournal_multi hmd]
      unfold overwriteMultiDateContent
      exact HKExt_ow_fold todayS dates (parseGroups bullets) content
        (fun g hg => parseGroups_wf g hg) (parseGroups_events_noNL hnl)
    · have hmd' : hasMultiDates bullets = false := by simpa using hmd
      cases how : dates.any (fun d => d == todayS) with
      | true =>
        rw [overwriteJournal_single_ow hb' hmd' how]
        exact HKExt_owSingle_raw ht
          (fun b hb2 => ⟨hnl b hb2, nonheader_of_not_multi hmd' b hb2⟩)
      | false =>
        rw [overwriteJournal_single_app hb' hmd' how]
        exact HKExt_appendToJournal todayS content bullets ht hnl

/-! ## Claim C7 -/

/-- C7: no merge or overwrite operation creates a duplicate header.  For
every canonical key `k` and every genuine single-line payload, if the
document already has a header line for `k` its count is preserved
exactly; if it has none, the result contains at most one; and on a
hand-edited document with duplicate headers the merge targets only the
first occurrence (concrete example). -/
theorem claim_C7 :
    (∀ (todayS doc k : Str) (bullets dates : List Str),
      isHeaderCore todayS = true → isHeaderCore k = true → NoNewlines bullets →
      ((1 ≤ countKey doc k →
        countKey (appendToJournal todayS doc bullets) k = countKey doc k ∧
        countKey (overwriteJournal todayS doc bullets dates) k = countKey doc k) ∧
       (countKey doc k = 0 →
        countKey (appendToJournal todayS doc bullets) k ≤ 1 ∧
        countKey (overwriteJournal todayS doc bullets dates) k ≤ 1))) ∧
    appendToJournal ("9.22.2025".toList) ("9.1.2025\n- a\n9.1.2025\n- b".toList)
      ["9.1.2025".toList, "- c".toList] =
      ("9.1.2025\n- a\n- c\n9.1.2025\n- b".toList) := by
  constructor
  · intro todayS doc k bullets dates ht hk hnl
    have ha := HKExt_count (HKExt_appendToJournal todayS doc bullets ht hnl) hk
    have ho := HKExt_count
      (HKExt_overwriteJournal todayS doc bullets dates ht hnl) hk
    exact ⟨fun h1 => ⟨ha.1 h1, ho.1 h1⟩, fun h0 => ⟨ha.2 h0, ho.2 h0⟩⟩
  · decide

/-- C7 witness: the duplicate-count discipline applied at a concrete
document that already carries the key. -/
theorem claim_C7_witness :
    isHeaderCore ("9.22.2025".toList) = true ∧
    isHeaderCore ("9.1.2025".toList) = true ∧
    NoNewlines ["9.1.2025".toList, "- c".toList] ∧
    1 ≤ countKey ("9.1.2025\n- a\n9.1.2025\n- b".toList) ("9.1.2025".toList) ∧
    countKey (appendToJournal ("9.22.2025".toList)
        ("9.1.2025\n- a\n9.1.2025\n- b".toList)
        ["9.1.2025".toList, "- c".toList]) ("9.1.2025".toList) =
      countKey ("9.1.2025\n- a\n9.1.2025\n- b".toList) ("9.1.2025".toList) ∧
    countKey (overwriteJournal ("9.22.2025".toList)
        ("9.1.2025\n- a\n9.1.2025\n- b".toList)
        ["9.1.2025".toList, "- c".toList] [("9.1.2025".toList)]) ("9.1.2025".toList) =
      countKey ("9.1.2025\n- a\n9.1.2025\n- b".toList) ("9.1.2025".toList) := by
  refine ⟨by decide, by decide, by decide, by decide, ?_, ?_⟩
  · exact ((claim_C7.1 ("9.22.2025".toList) ("9.1.2025\n- a\n9.1.2025\n- b".toList)
      ("9.1.2025".toList) ["9.1.2025".toList, "- c".toList] [("9.1.2025".toList)]
      (by decide) (by decide) (by decide)).1 (by decide)).1
  · exact ((claim_C7.1 ("9.22.2025".toList) ("9.1.2025\n- a\n9.1.2025\n- b".toList)
      ("9.1.2025".toList) ["9.1.2025".toList, "- c".toList] [("9.1.2025".toList)]
      (by decide) (by decide) (by decide)).1 (by decide)).2

/-! ## Lemmas: line-level effect of the merge step -/

theorem mergeOne_lines_splice {r : Str} {g : Str × List Str} {di : Nat}
    (hE : g.2.isEmpty = false)
    (hfi : firstIdx (fun l => trimStr l == g.1) (splitNL r) = some di)
    (hnl : ∀ e ∈ g.2, '\n' ∉ e) :
    splitNL (mergeOne r g) =
      (splitNL r).take (di + 1 + spliceRun r di) ++ g.2 ++
        (splitNL r).drop (di + 1 + spliceRun r di) := by
  rw [mergeOne_splice hE hfi]
  apply split_join
  · intro l hl
    rcases List.mem_append.mp hl with h1 | h1
    · rcases List.mem_append.mp h1 with h2 | h2
      · exact noNL_of_mem_splitNL ((List.take_sublist _ _).mem h2)
      · exact hnl l h2
    · exact noNL_of_mem_splitNL ((List.drop_sublist _ _).mem h1)
  · intro hcon
    rcases List.append_eq_nil.mp hcon with ⟨h1, _⟩
    rcases List.append_eq_nil.mp h1 with ⟨h2, _⟩
    have hlen : di < (splitNL r).length := firstIdx_some_lt hfi
    have h0 := congrArg List.length h2
    rw [List.length_take] at h0
    simp only [List.length_nil] at h0
    rcases Nat.min_eq_zero_iff.mp h0 with h | h <;> omega

theorem mergeOne_lines_new {r : Str} {g : Str × List Str}
    (hwf : GroupWF g) (hE : g.2.isEmpty = false)
    (hh : hasDateHeader r g.1 = false) (hr : r.isEmpty = false)
    (hnl : ∀ e ∈ g.2, '\n' ∉ e) :
    splitNL (mergeOne r g) = splitNL r ++ [] :: g.1 :: g.2 := by
  rw [mergeOne_new hE hh hr]
  have hres : (r ++ '\n' :: '\n' :: g.1 ++ '\n' :: joinNL g.2) =
      r ++ '\n' :: ('\n' :: (g.1 ++ '\n' :: joinNL g.2)) := by simp
  rw [hres, splitNL_append_newline, splitNL_cons_newline,
    splitNL_noNL_append _ _ (isHeaderCore_noNL hwf.1),
    split_join hnl (by simpa using hE)]

theorem mergeOne_ne_nil {r : Str} {g : Str × List Str}
    (hr : TrimStable r) (hrne : r ≠ []) (hwf : GroupWF g) :
    mergeOne r g ≠ [] := by
  by_cases hE : g.2.isEmpty = true
  · rw [mergeOne_skip hE]
    exact hrne
  · have hE' : g.2.isEmpty = false := by simpa using hE
    by_cases hh : hasDateHeader r g.1 = true
    · rcases hasDateHeader_iff_firstIdx.mp hh with ⟨di, hfi⟩
      rw [mergeOne_splice hE' hfi]
      rcases splitNL_head_struct hr hrne with ⟨c, h, t, _, _, hlines⟩
      have harith : di + 1 + spliceRun r di = (di + spliceRun r di) + 1 := by omega
      rw [hlines, harith, List.take_succ_cons]
      intro hcon
      rw [List.cons_append, List.cons_append] at hcon
      have := congrArg List.head? hcon
      rw [head?_joinNL (c :: h) _ (by simp)] at this
      simp at this
    · rw [mergeOne_new hE' (by simpa using hh) (by simpa using hrne)]
      intro hcon
      rcases List.append_eq_nil.mp hcon with ⟨h1, h2⟩
      simp at h2

theorem sublist_mergeOne {r : Str} {g : Str × List Str}
    (hr : TrimStable r) (hrne : r ≠ []) (hwf : GroupWF g)
    (hnl : ∀ e ∈ g.2, '\n' ∉ e) :
    (splitNL r).Sublist (splitNL (mergeOne r g)) := by
  by_cases hE : g.2.isEmpty = true
  · rw [mergeOne_skip hE]
  · have hE' : g.2.isEmpty = false := by simpa using hE
    by_cases hh : hasDateHeader r g.1 = true
    · rcases hasDateHeader_iff_firstIdx.mp hh with ⟨di, hfi⟩
      rw [mergeOne_lines_splice hE' hfi hnl]
      conv_lhs => rw [← List.take_append_drop (di + 1 + spliceRun r di) (splitNL r)]
      rw [List.append_assoc]
      exact ((List.sublist_append_right _ _).append_left _)
    · rw [mergeOne_lines_new hwf hE' (by simpa using hh) (by simpa using hrne) hnl]
      exact List.sublist_append_left _ _

theorem sublist_merge_fold :
    ∀ (gs : List (Str × List Str)) (r : Str), (∀ g ∈ gs, GroupWF g) →
    (∀ g ∈ gs, ∀ e ∈ g.2, '\n' ∉ e) → TrimStable r → r ≠ [] →
    (splitNL r).Sublist (splitNL (gs.foldl mergeOne r)) := by
  intro gs
  induction gs with
  | nil => intro r _ _ _ _; rw [List.foldl_nil]
  | cons g rest ih =>
    intro r hwf hnl hts hne
    rw [List.foldl_cons]
    exact (sublist_mergeOne hts hne (hwf g (by simp)) (hnl g (by simp))).trans
      (ih (mergeOne r g) (fun x hx => hwf x (List.mem_cons_of_mem g hx))
        (fun x hx => hnl x (List.mem_cons_of_mem g hx))
        (mergeOne_trimStable hts (hwf g (by simp)))
        (mergeOne_ne_nil hts hne (hwf g (by simp))))

theorem sublist_appendSingleDate {todayS doc : Str} {bullets : List Str}
    (hts : TrimStable doc) (hne : doc ≠ []) (hbne : bullets ≠ [])
    (hbnl : ∀ b ∈ bullets, '\n' ∉ b) (htnl : '\n' ∉ todayS) :
    (splitNL doc).Sublist (splitNL (appendSingleDate todayS doc bullets)) := by
  have hts' : trimStr doc = doc := hts
  have hie : doc.isEmpty = false := by simpa using hne
  obtain ⟨c, hg⟩ : ∃ c, doc.getLast? = some c := by
    cases hg : doc.getLast?
    · exact absurd (List.getLast?_eq_none_iff.mp hg) hne
    · exact ⟨_, rfl⟩
  have hcws : isWS c = false := trimStable_getLast hts hg
  have hcne : (doc.getLast? == some '\n') = false := by
    rw [hg]
    simp only [beq_eq_false_iff_ne, ne_eq, Option.some.injEq]
    intro hcn
    rw [hcn] at hcws
    exact absurd hcws (by decide)
  by_cases hd : hasDateHeader doc todayS = true
  · have heq : appendSingleDate todayS doc bullets = doc ++ '\n' :: joinNL bullets := by
      simp [appendSingleDate, hts', hd, hie, hcne]
    rw [heq, splitNL_append_newline, split_join hbnl hbne]
    exact List.sublist_append_left _ _
  · have hd' : hasDateHeader doc todayS = false := by simpa using hd
    have heq : appendSingleDate todayS doc bullets =
        doc ++ '\n' :: '\n' :: (todayS ++ '\n' :: joinNL bullets) := by
      simp [appendSingleDate, hts', hd', hie]
    rw [heq, splitNL_append_newline, splitNL_cons_newline,
      splitNL_noNL_append _ _ htnl, split_join hbnl hbne]
    exact List.sublist_append_left _ _

theorem sublist_appendToJournal {todayS doc : Str} {bullets : List Str}
    (ht : isHeaderCore todayS = true) (hts : TrimStable doc) (hne : doc ≠ [])
    (hnl : NoNewlines bullets) :
    (splitNL doc).Sublist (splitNL (appendToJournal todayS doc bullets)) := by
  by_cases h0 : bullets.isEmpty = true
  · rw [appendToJournal_nil h0]
  · have h0' : bullets.isEmpty = false := by simpa using h0
    by_cases hmd : hasMultiDates bullets = true
    · rw [appendToJournal_multi hmd]
      unfold mergeMultiDateContent
      rw [show trimStr doc = doc from hts]
      exact sublist_merge_fold _ _ parseGroups_wf (parseGroups_events_noNL hnl) hts hne
    · have hmd' : hasMultiDates bullets = false := by simpa using hmd
      rw [appendToJournal_single h0' hmd']
      exact sublist_appendSingleDate hts hne (by simpa using h0') hnl (isHeaderCore_noNL ht)

theorem overwriteSingleDate_lines {todayS doc d : Str} {entries : List Str} {di : Nat}
    (hnl : ∀ e ∈ entries, '\n' ∉ e)
    (hfi : firstIdx (fun l => trimStr l == d) (splitNL doc) = some di) :
    splitNL (overwriteSingleDate todayS doc entries d) =
      (splitNL doc).take (di + 1) ++ entries ++
        (splitNL doc).drop (di + 1 + owRun doc di) := by
  rw [overwriteSingleDate_found hfi]
  apply split_join
  · intro l hl
    rcases List.mem_append.mp hl with h1 | h1
    · rcases List.mem_append.mp h1 with h2 | h2
      · exact noNL_of_mem_splitNL ((List.take_sublist _ _).mem h2)
      · exact hnl l h2
    · exact noNL_of_mem_splitNL ((List.drop_sublist _ _).mem h1)
  · intro hcon
    rcases List.append_eq_nil.mp hcon with ⟨h1, _⟩
    rcases List.append_eq_nil.mp h1 with ⟨h2, _⟩
    have hlen : di < (splitNL doc).length := firstIdx_some_lt hfi
    have h0 := congrArg List.length h2
    rw [List.length_take] at h0
    simp only [List.length_nil] at h0
    rcases Nat.min_eq_zero_iff.mp h0 with h | h <;> omega

/-- C6 counterexample: the initial whole-document trim breaks byte-for-byte
preservation of untouched content.  The payload targets only 9.20.2025, yet
the 9.21.2025 section of a document ending in blank lines loses its trailing
blank lines (its body changes from the three lines "- a", "", "" to the two
lines "- a", ""). -/
theorem claim_C6_counterexample :
    ((parseGroups [("9.20.2025".toList), ("- b".toList)]).all
      (fun g => !(g.1 == ("9.21.2025".toList)))) = true ∧
    sectionBody (("9.21.2025\n- a\n\n").toList) (("9.21.2025").toList) ≠
      sectionBody
        (appendToJournal (("9.22.2025").toList) (("9.21.2025\n- a\n\n").toList)
          [("9.20.2025".toList), ("- b".toList)])
        (("9.21.2025").toList) :=
  ⟨by decide, by decide⟩

/-- C6 (amended): modulo the initial whole-document trim, operations only
insert or replace targeted spans.  (1) On a trim-stable nonempty document,
append (any path) preserves every pre-existing line byte-for-byte and in
order: the old line list is a sublist of the new one.  (2) Overwriting an
existing date replaces exactly the span from just after its first header
line to the next header line: every line before the header and from the
next header on survives byte-for-byte at its position. -/
theorem claim_C6_amended :
    (∀ (todayS doc : Str) (bullets : List Str),
      isHeaderCore todayS = true → TrimStable doc → doc ≠ [] → NoNewlines bullets →
      (splitNL doc).Sublist (splitNL (appendToJournal todayS doc bullets))) ∧
    (∀ (todayS doc d : Str) (entries : List Str) (di : Nat),
      NoNewlines entries →
      firstIdx (fun l => trimStr l == d) (splitNL doc) = some di →
      splitNL (overwriteSingleDate todayS doc entries d) =
        (splitNL doc).take (di + 1) ++ entries ++
          (splitNL doc).drop (di + 1 + owRun doc di)) := by
  constructor
  · intro todayS doc bullets ht hts hne hnl
    exact sublist_appendToJournal ht hts hne hnl
  · intro todayS doc d entries di hnl hfi
    exact overwriteSingleDate_lines hnl hfi

/-- Witness for C6 (amended) at concrete inputs: an append preserving the
existing 9.21.2025 section's lines, and an overwrite of 9.21.2025 replacing
exactly its span while keeping the 9.20.2025 section. -/
theorem claim_C6_witness :
    (isHeaderCore (("9.22.2025").toList) = true ∧
      TrimStable (("9.21.2025\n- a").toList) ∧
      (("9.21.2025\n- a").toList) ≠ [] ∧
      NoNewlines [("9.20.2025".toList), ("- b".toList)] ∧
      (splitNL (("9.21.2025\n- a").toList)).Sublist
        (splitNL (appendToJournal (("9.22.2025").toList) (("9.21.2025\n- a").toList)
          [("9.20.2025".toList), ("- b".toList)]))) ∧
    (NoNewlines [("- new".toList)] ∧
      firstIdx (fun l => trimStr l == ("9.21.2025").toList)
        (splitNL (("9.21.2025\n- old\n9.20.2025\n- keep").toList)) = some 0 ∧
      splitNL (overwriteSingleDate (("9.21.2025").toList)
          (("9.21.2025\n- old\n9.20.2025\n- keep").toList) [("- new".toList)]
          (("9.21.2025").toList)) =
        (splitNL (("9.21.2025\n- old\n9.20.2025\n- keep").toList)).take (0 + 1) ++
          [("- new".toList)] ++
          (splitNL (("9.21.2025\n- old\n9.20.2025\n- keep").toList)).drop
            (0 + 1 + owRun (("9.21.2025\n- old\n9.20.2025\n- keep").toList) 0)) := by
  refine ⟨⟨by decide, by decide, by decide, by decide, ?_⟩, ⟨by decide, by decide, ?_⟩⟩
  · exact claim_C6_amended.1 _ _ _ (by decide) (by decide) (by decide) (by decide)
  · exact claim_C6_amended.2 _ _ _ _ 0 (by decide) (by decide)

/-! ## Lemmas: payload filtering (claim C10) -/

theorem foldl_parseStep_nonheader :
    ∀ (pre : List Str), (∀ p ∈ pre, isHeaderCore (trimStr p) = false) →
    pre.foldl parseStep (none, []) = (none, []) := by
  intro pre
  induction pre with
  | nil => intro _; rfl
  | cons p rest ih =>
    intro h
    rw [List.foldl_cons]
    have hp : isHeaderCore (trimStr p) = false := h p (by simp)
    have hstep : parseStep (none, []) p = (none, []) := by
      by_cases hb : isBulletStart (trimStr p) = true
      · exact parseStep_skip_nokey hp hb rfl
      · exact parseStep_skip hp (by simpa using hb)
    rw [hstep]
    exact ih (fun x hx => h x (List.mem_cons_of_mem p hx))

theorem merge_fold_filter :
    ∀ (gs : List (Str × List Str)) (r : Str),
    gs.foldl mergeOne r = (gs.filter (fun g => !g.2.isEmpty)).foldl mergeOne r := by
  intro gs
  induction gs with
  | nil => intro r; rfl
  | cons g rest ih =>
    intro r
    by_cases hE : g.2.isEmpty = true
    · rw [List.foldl_cons, mergeOne_skip hE,
        List.filter_cons_of_neg (by simp [hE]), ih]
    · have hE' : g.2.isEmpty = false := by simpa using hE
      rw [List.foldl_cons, List.filter_cons_of_pos (by simp [hE']),
        List.foldl_cons, ih]

theorem ow_fold_filter (todayS : Str) (dates : List Str) :
    ∀ (gs : List (Str × List Str)) (r : Str),
    gs.foldl
        (fun r g =>
          if g.2.isEmpty then r
          else if dates.any (fun d => d == g.1) then overwriteSingleDate todayS r g.2 g.1
          else appendToJournal todayS r (g.1 :: g.2)) r =
      (gs.filter (fun g => !g.2.isEmpty)).foldl
        (fun r g =>
          if dates.any (fun d => d == g.1) then overwriteSingleDate todayS r g.2 g.1
          else appendToJournal todayS r (g.1 :: g.2)) r := by
  intro gs
  induction gs with
  | nil => intro r; rfl
  | cons g rest ih =>
    intro r
    by_cases hE : g.2.isEmpty = true
    · rw [List.foldl_cons, List.filter_cons_of_neg (by simp [hE]), ← ih]
      simp only [hE, if_true]
    · have hE' : g.2.isEmpty = false := by simpa using hE
      rw [List.foldl_cons, List.filter_cons_of_pos (by simp [hE']),
        List.foldl_cons, ← ih]
      simp only [hE', Bool.false_eq_true, if_false]

/-- C10: the payload parser retains only lines that, after trimming, start
with a bullet marker and appear after some date-header line, and a header
whose group has no retained bullet contributes nothing to either engine.
(1) A payload line that is neither a header nor a bullet is discarded
wherever it occurs.  (2) Everything before the first header line is
discarded (in particular bullet lines before the first header).  (3) Every
retained event is the trimmed form of a bullet line.  (4)/(5) Both the merge
and the overwrite engine fold only over groups with at least one retained
bullet line: entry-less groups are filtered out and their headers never
reach the document. -/
theorem claim_C10 :
    (∀ (pre post : List Str) (b : Str),
      isHeaderCore (trimStr b) = false → isBulletStart (trimStr b) = false →
      parseGroups (pre ++ b :: post) = parseGroups (pre ++ post)) ∧
    (∀ (pre post : List Str),
      (∀ p ∈ pre, isHeaderCore (trimStr p) = false) →
      parseGroups (pre ++ post) = parseGroups post) ∧
    (∀ (bullets : List Str), ∀ g ∈ parseGroups bullets, ∀ e ∈ g.2,
      trimStr e = e ∧ isBulletStart e = true) ∧
    (∀ (content : Str) (bullets : List Str),
      mergeMultiDateContent content bullets =
        ((parseGroups bullets).filter (fun g => !g.2.isEmpty)).foldl mergeOne
          (trimStr content)) ∧
    (∀ (todayS content : Str) (bullets dates : List Str),
      overwriteMultiDateContent todayS content bullets dates =
        ((parseGroups bullets).filter (fun g => !g.2.isEmpty)).foldl
          (fun r g =>
            if dates.any (fun d => d == g.1) then overwriteSingleDate todayS r g.2 g.1
            else appendToJournal todayS r (g.1 :: g.2)) content) := by
  refine ⟨?_, ?_, ?_, ?_, ?_⟩
  · intro pre post b hh hbul
    unfold parseGroups
    rw [List.foldl_append, List.foldl_cons, parseStep_skip hh hbul, ← List.foldl_append]
  · intro pre post hpre
    unfold parseGroups
    rw [List.foldl_append, foldl_parseStep_nonheader pre hpre]
  · intro bullets g hg e he
    exact (parseGroups_wf g hg).2 e he
  · intro content bullets
    unfold mergeMultiDateContent
    exact merge_fold_filter _ _
  · intro todayS content bullets dates
    unfold overwriteMultiDateContent
    exact ow_fold_filter todayS dates _ _

/-- Witness for C10 at concrete payloads: a prose line is dropped from the
middle, a leading bullet before any header is dropped, the retained event is
the trimmed bullet, and a header with no bullets ("9.19.2025" below) leaves
both engines' documents untouched. -/
theorem claim_C10_witness :
    (isHeaderCore (trimStr ("prose".toList)) = false ∧
      isBulletStart (trimStr ("prose".toList)) = false ∧
      parseGroups [("9.21.2025".toList), ("prose".toList), ("- a".toList)] =
        parseGroups [("9.21.2025".toList), ("- a".toList)]) ∧
    ((∀ p ∈ [("- early".toList)], isHeaderCore (trimStr p) = false) ∧
      parseGroups [("- early".toList), ("9.21.2025".toList), ("- a".toList)] =
        parseGroups [("9.21.2025".toList), ("- a".toList)]) ∧
    (∀ g ∈ parseGroups [("9.21.2025".toList), ("  - a  ".toList)], ∀ e ∈ g.2,
      trimStr e = e ∧ isBulletStart e = true) ∧
    mergeMultiDateContent ("x".toList) [("9.19.2025".toList), ("9.21.2025".toList), ("- a".toList)] =
      ((parseGroups [("9.19.2025".toList), ("9.21.2025".toList), ("- a".toList)]).filter
        (fun g => !g.2.isEmpty)).foldl mergeOne (trimStr ("x".toList)) ∧
    overwriteMultiDateContent ("9.22.2025".toList) ("x".toList)
        [("9.19.2025".toList), ("9.21.2025".toList), ("- a".toList)] [("9.21.2025".toList)] =
      ((parseGroups [("9.19.2025".toList), ("9.21.2025".toList), ("- a".toList)]).filter
        (fun g => !g.2.isEmpty)).foldl
        (fun r g =>
          if [("9.21.2025".toList)].any (fun d => d == g.1) then
            overwriteSingleDate ("9.22.2025".toList) r g.2 g.1
          else appendToJournal ("9.22.2025".toList) r (g.1 :: g.2)) ("x".toList) := by
  refine ⟨⟨by decide, by decide, ?_⟩, ⟨by decide, ?_⟩, ?_, ?_, ?_⟩
  · exact claim_C10.1 [("9.21.2025".toList)] [("- a".toList)] ("prose".toList)
      (by decide) (by decide)
  · exact claim_C10.2.1 [("- early".toList)] [("9.21.2025".toList), ("- a".toList)]
      (by decide)
  · exact claim_C10.2.2.1 [("9.21.2025".toList), ("  - a  ".toList)]
  · exact claim_C10.2.2.2.1 ("x".toList)
      [("9.19.2025".toList), ("9.21.2025".toList), ("- a".toList)]
  · exact claim_C10.2.2.2.2 ("9.22.2025".toList) ("x".toList)
      [("9.19.2025".toList), ("9.21.2025".toList), ("- a".toList)] [("9.21.2025".toList)]

/-! ## Lemmas: bullet cleanup (claim C8) -/

theorem foldl_applyPre_none :
    ∀ (ps : List (List PTok)) (s : Str), (∀ p ∈ ps, matchPre p s = none) →
    ps.foldl applyPre s = s := by
  intro ps
  induction ps with
  | nil => intro s _; rfl
  | cons p rest ih =>
    intro s h
    rw [List.foldl_cons]
    have hstep : applyPre s p = s := by
      unfold applyPre
      rw [h p (by simp)]
    rw [hstep]
    exact ih s (fun q hq => h q (List.mem_cons_of_mem p hq))

theorem findSome?_matchPre_none :
    ∀ (ps : List (List PTok)) (s : Str), (∀ p ∈ ps, matchPre p s = none) →
    ps.findSome? (fun p => matchPre p s) = none := by
  intro ps
  induction ps with
  | nil => intro s _; rfl
  | cons p rest ih =>
    intro s h
    rw [List.findSome?_cons, h p (by simp)]
    exact ih s (fun q hq => h q (List.mem_cons_of_mem p hq))

theorem findSome?_matchPre_first :
    ∀ (pre : List (List PTok)) (p : List PTok) (post : List (List PTok)) (s r : Str),
    (∀ q ∈ pre, matchPre q s = none) → matchPre p s = some r →
    (pre ++ p :: post).findSome? (fun q => matchPre q s) = some r := by
  intro pre
  induction pre with
  | nil =>
    intro p post s r _ hp
    rw [List.nil_append, List.findSome?_cons, hp]
  | cons q rest ih =>
    intro p post s r hn hp
    rw [List.cons_append, List.findSome?_cons, hn q (by simp)]
    exact ih p post s r (fun x hx => hn x (List.mem_cons_of_mem q hx)) hp

/-- C8 counterexample: cleanup does NOT stop at the first matching prefix.
All ten patterns are applied in sequence to the evolving string, so
"I I was happy" is stripped twice (first by the "I " pattern, then by the
"I was " pattern on the intermediate string), giving "Happy"; a
first-match-wins single strip would give "I was happy". -/
theorem claim_C8_counterexample :
    cleanBullet (("I I was happy").toList) = ("Happy").toList ∧
    cleanBulletOnce (("I I was happy").toList) = ("I was happy").toList ∧
    cleanBullet (("I I was happy").toList) ≠ cleanBulletOnce (("I I was happy").toList) :=
  ⟨by decide, by decide, by decide⟩

/-- C8 (amended): cleanup applies each of the ten filler patterns once, in
listed order, to the evolving string — so several prefixes can be stripped
in cascade.  (1) Each single application either leaves the string unchanged
(no match) or removes exactly the matched prefix.  (2) If no pattern matches
the trimmed piece, the result agrees with the single-strip reading.  (3) If
the first matching pattern strips to a remainder that no later pattern
matches, the result also agrees with the single-strip (first match wins)
reading.  (4) The trailing-punctuation strip leaves no trailing '.', '!'
or '?' at the point it is applied. -/
theorem claim_C8_amended :
    (∀ (s : Str) (p : List PTok),
      (matchPre p s = none ∧ applyPre s p = s) ∨
      (∃ r, matchPre p s = some r ∧ applyPre s p = r)) ∧
    (∀ b : Str, (∀ p ∈ PREFIXES_TO_REMOVE, matchPre p (trimStr b) = none) →
      cleanBullet b = cleanBulletOnce b) ∧
    (∀ (b r : Str) (pre post : List (List PTok)) (p : List PTok),
      PREFIXES_TO_REMOVE = pre ++ p :: post →
      (∀ q ∈ pre, matchPre q (trimStr b) = none) →
      matchPre p (trimStr b) = some r →
      (∀ q ∈ post, matchPre q r = none) →
      cleanBullet b = cleanBulletOnce b) ∧
    (∀ (s : Str) (c : Char), (dropTrailingPunct s).getLast? = some c →
      isPunctEnd c = false) := by
  refine ⟨?_, ?_, ?_, ?_⟩
  · intro s p
    unfold applyPre
    cases h : matchPre p s with
    | none => exact Or.inl ⟨rfl, rfl⟩
    | some r => exact Or.inr ⟨r, rfl, rfl⟩
  · intro b h
    simp only [cleanBullet, cleanBulletOnce]
    rw [foldl_applyPre_none _ _ h, findSome?_matchPre_none _ _ h]
  · intro b r pre post p hsplit hn hp hpost
    have happ : applyPre (trimStr b) p = r := by
      unfold applyPre
      rw [hp]
    simp only [cleanBullet, cleanBulletOnce]
    rw [hsplit, List.foldl_append, foldl_applyPre_none pre _ hn, List.foldl_cons,
      happ, foldl_applyPre_none post _ hpost,
      findSome?_matchPre_first pre p post (trimStr b) r hn hp]
  · intro s c h
    unfold dropTrailingPunct at h
    rw [List.getLast?_reverse] at h
    exact head?_dropWhile h

/-- Witness for C8 (amended) at concrete inputs: a non-matching application
is the identity; "hello." matches no pattern and agrees with the
single-strip reading; "i ran" is stripped exactly once by the first pattern
(no later pattern matches "ran") and agrees with the single-strip reading;
dropping trailing punctuation from "Ran!!" leaves last character 'n'. -/
theorem claim_C8_witness :
    ((matchPre [PTok.ws] (("x").toList) = none ∧
        applyPre (("x").toList) [PTok.ws] = ("x").toList) ∨
      (∃ r, matchPre [PTok.ws] (("x").toList) = some r ∧
        applyPre (("x").toList) [PTok.ws] = r)) ∧
    ((∀ p ∈ PREFIXES_TO_REMOVE, matchPre p (trimStr (("hello.").toList)) = none) ∧
      cleanBullet (("hello.").toList) = cleanBulletOnce (("hello.").toList)) ∧
    (PREFIXES_TO_REMOVE =
        [] ++ (litToks (("i").toList) ++ [PTok.ws]) :: PREFIXES_TO_REMOVE.drop 1 ∧
      matchPre (litToks (("i").toList) ++ [PTok.ws]) (trimStr (("i ran").toList)) =
        some (("ran").toList) ∧
      (∀ q ∈ PREFIXES_TO_REMOVE.drop 1, matchPre q (("ran").toList) = none) ∧
      cleanBullet (("i ran").toList) = cleanBulletOnce (("i ran").toList)) ∧
    ((dropTrailingPunct (("Ran!!").toList)).getLast? = some 'n' ∧
      isPunctEnd 'n' = false) := by
  refine ⟨?_, ⟨by decide, ?_⟩, ⟨by decide, by decide, by decide, ?_⟩, ⟨by decide, ?_⟩⟩
  · exact claim_C8_amended.1 (("x").toList) [PTok.ws]
  · exact claim_C8_amended.2.1 (("hello.").toList) (by decide)
  · exact claim_C8_amended.2.2.1 (("i ran").toList) (("ran").toList) []
      (PREFIXES_TO_REMOVE.drop 1) (litToks (("i").toList) ++ [PTok.ws])
      (by decide) (by decide) (by decide) (by decide)
  · exact claim_C8_amended.2.2.2 (("Ran!!").toList) 'n' (by decide)

/-! ## Lemmas: weekday resolution (claim C4) -/

theorem subDays_add (td : JDate) (a : Nat) :
    ∀ b : Nat, subDays td (a + b) = subDays (subDays td a) b := by
  intro b
  induction b with
  | zero => rfl
  | succ n ih =>
    show subDays td (a + n + 1) = subDay1 (subDays (subDays td a) n)
    rw [← ih]
    rfl

/-- C4 counterexample: naming today's own weekday does NOT resolve to today.
On Sunday 9.21.2025 (`getDay() = 0`), "sunday" hits `daysBack = 0`, the
`daysBack <= 0` branch pushes it to 7, and the result is 9.14.2025 — one
week back, not the current date. -/
theorem claim_C4_counterexample :
    getDayJS ⟨2025, 9, 21⟩ = 0 ∧
    prefixIdx (("sunday").toList) dayNamesL = some 0 ∧
    normalizeDateFormat ⟨2025, 9, 21⟩ (("sunday").toList) =
      some (("9.14.2025").toList) ∧
    normalizeDateFormat ⟨2025, 9, 21⟩ (("sunday").toList) ≠
      some (renderDate ⟨2025, 9, 21⟩) :=
  ⟨by decide, by decide, by decide, by decide⟩

/-- C4 (amended): a bare weekday name resolves `bareBack` days back, where
naming today's own weekday gives 7 (the previous week's occurrence, never
0 days back), and a "last"-prefixed input always resolves exactly 7 further
days back than the bare resolution.  The middle conjunct is the weekday
branch of the normalizer in closed form: when the input reaches the weekday
branch with capture `g` resolving to index `i`, the result is today minus
`bareBack` (plus 7 with "last"). -/
theorem claim_C4_amended :
    (∀ td : JDate, bareBack td (getDayJS td) = 7) ∧
    (∀ (td : JDate) (s g : Str) (i : Nat),
      isHeaderCore s = false → fullDateMatch s = none → shortDateMatch s = none →
      containsSub (("today").toList) (s.map Char.toLower) = false →
      containsSub (("yesterday").toList) (s.map Char.toLower) = false →
      dayNameMatch (s.map Char.toLower) = some g →
      prefixIdx g dayNamesL = some i →
      normalizeDateFormat td s =
        some (renderDate (subDays td
          (if containsSub (("last").toList) (s.map Char.toLower)
           then bareBack td i + 7 else bareBack td i)))) ∧
    (∀ (td : JDate) (n : Nat), subDays td (n + 7) = subDays (subDays td n) 7) := by
  refine ⟨?_, ?_, ?_⟩
  · intro td
    unfold bareBack
    rw [if_pos (Nat.le_refl _)]
    omega
  · intro td s g i h0 h1 h2 h3 h4 h5 h6
    by_cases hl : containsSub (("last").toList) (s.map Char.toLower) = true
    · simp only [normalizeDateFormat, h0, h1, h2, h3, h4, h5, h6, hl, bareBack,
        Bool.false_eq_true, if_false, if_true]
    · have hl' : containsSub (("last").toList) (s.map Char.toLower) = false := by
        simpa using hl
      simp only [normalizeDateFormat, h0, h1, h2, h3, h4, h5, h6, hl', bareBack,
        Bool.false_eq_true, if_false]
  · intro td n
    exact subDays_add td n 7

/-- Witness for C4 (amended): on Sunday 9.21.2025, `bareBack` for index 0
is 7; "monday" resolves via the closed form to 6 days back (9.15.2025);
and subtracting `1 + 7` days equals subtracting 1 then 7. -/
theorem claim_C4_witness :
    bareBack ⟨2025, 9, 21⟩ (getDayJS ⟨2025, 9, 21⟩) = 7 ∧
    (isHeaderCore (("monday").toList) = false ∧
      fullDateMatch (("monday").toList) = none ∧
      shortDateMatch (("monday").toList) = none ∧
      containsSub (("today").toList) ((("monday").toList).map Char.toLower) = false ∧
      containsSub (("yesterday").toList) ((("monday").toList).map Char.toLower) = false ∧
      dayNameMatch ((("monday").toList).map Char.toLower) = some (("monday").toList) ∧
      prefixIdx (("monday").toList) dayNamesL = some 1 ∧
      normalizeDateFormat ⟨2025, 9, 21⟩ (("monday").toList) =
        some (renderDate (subDays ⟨2025, 9, 21⟩
          (if containsSub (("last").toList) ((("monday").toList).map Char.toLower)
           then bareBack ⟨2025, 9, 21⟩ 1 + 7 else bareBack ⟨2025, 9, 21⟩ 1)))) ∧
    subDays ⟨2025, 9, 21⟩ (1 + 7) = subDays (subDays ⟨2025, 9, 21⟩ 1) 7 := by
  refine ⟨claim_C4_amended.1 ⟨2025, 9, 21⟩,
    ⟨by decide, by decide, by decide, by decide, by decide, by decide, by decide, ?_⟩,
    claim_C4_amended.2.2 ⟨2025, 9, 21⟩ 1⟩
  exact claim_C4_amended.2.1 ⟨2025, 9, 21⟩ (("monday").toList) (("monday").toList) 1
    (by decide) (by decide) (by decide) (by decide) (by decide) (by decide) (by decide)

/-! ## Lemmas: normalizer output shape (claim C3) -/

theorem daysInMonth_bounds (y m : Nat) : 28 ≤ daysInMonth y m ∧ daysInMonth y m ≤ 31 := by
  unfold daysInMonth
  by_cases h2 : m = 2
  · rw [if_pos h2]
    by_cases hl : isLeap y = true
    · rw [if_pos hl]; omega
    · rw [if_neg hl]; omega
  · rw [if_neg h2]
    by_cases h4 : m = 4 ∨ m = 6 ∨ m = 9 ∨ m = 11
    · rw [if_pos h4]; omega
    · rw [if_neg h4]; omega

theorem daysInMonth_12 (y : Nat) : daysInMonth y 12 = 31 := by
  unfold daysInMonth
  norm_num

theorem subDay1_valid {dt : JDate} (h : ValidDate dt) (hy : 2 ≤ dt.y) :
    ValidDate (subDay1 dt) ∧ dt.y - 1 ≤ (subDay1 dt).y ∧ (subDay1 dt).y ≤ dt.y := by
  obtain ⟨hm1, hm2, hd1, hd2, hy1⟩ := h
  unfold subDay1 ValidDate
  by_cases hd : 2 ≤ dt.d
  · rw [if_pos hd]
    refine ⟨⟨?_, ?_, ?_, ?_, ?_⟩, ?_, ?_⟩ <;> simp only [] <;> omega
  · rw [if_neg hd]
    by_cases hm : 2 ≤ dt.m
    · rw [if_pos hm]
      have hb := daysInMonth_bounds dt.y (dt.m - 1)
      refine ⟨⟨?_, ?_, ?_, ?_, ?_⟩, ?_, ?_⟩ <;> simp only [] <;> omega
    · rw [if_neg hm]
      have h12 := daysInMonth_12 (dt.y - 1)
      refine ⟨⟨?_, ?_, ?_, ?_, ?_⟩, ?_, ?_⟩ <;> simp only [] <;> [skip; skip; skip; rw [h12]; skip; skip; skip] <;> omega

theorem subDays_valid {dt : JDate} (h : ValidDate dt) :
    ∀ n : Nat, n + 1 ≤ dt.y →
    ValidDate (subDays dt n) ∧ dt.y - n ≤ (subDays dt n).y ∧ (subDays dt n).y ≤ dt.y := by
  intro n
  induction n with
  | zero =>
    intro _
    have hstep0 : subDays dt 0 = dt := rfl
    rw [hstep0]
    exact ⟨h, by omega, le_refl _⟩
  | succ m ih =>
    intro hle
    obtain ⟨hv, hge, hle2⟩ := ih (by omega)
    obtain ⟨hv', hge', hle'⟩ := subDay1_valid hv (by omega)
    have hstep : subDays dt (m + 1) = subDay1 (subDays dt m) := rfl
    rw [hstep]
    exact ⟨hv', by omega, by omega⟩

theorem getDayJS_lt (dt : JDate) : getDayJS dt < 7 := by
  unfold getDayJS
  exact Nat.mod_lt _ (by omega)

theorem all_of_digitRun_len {l : Str} (h : (digitRun l).length = l.length) :
    ∀ x ∈ l, x.isDigit = true := by
  have hpre : (l.takeWhile Char.isDigit) <+: l := List.takeWhile_prefix _
  have heq : l.takeWhile Char.isDigit = l := List.IsPrefix.eq_of_length hpre h
  intro x hx
  exact List.mem_takeWhile_imp (heq ▸ hx)

theorem isLooseKey_build {a b c : Str}
    (ha : ∀ x ∈ a, x.isDigit = true) (ha1 : 1 ≤ a.length) (ha2 : a.length ≤ 2)
    (hb : ∀ x ∈ b, x.isDigit = true) (hb1 : 1 ≤ b.length) (hb2 : b.length ≤ 2)
    (hc : ∀ x ∈ c, x.isDigit = true) (hc1 : 1 ≤ c.length) (hc2 : c.length ≤ 4) :
    isLooseKey (a ++ '.' :: b ++ '.' :: c) = true := by
  have hdot : ('.' : Char).isDigit = false := by decide
  have hassoc : a ++ '.' :: b ++ '.' :: c = a ++ '.' :: (b ++ '.' :: c) := by simp
  rw [hassoc]
  simp only [isLooseKey]
  rw [takeWhile_append_stop (b ++ '.' :: c) ha hdot, List.drop_left]
  split
  case h_2 h =>
    exact (h _ rfl).elim
  case h_1 r2 heq =>
    have hr2 : r2 = b ++ '.' :: c := by
      injection heq with _ h2
      exact h2.symm
    subst hr2
    rw [takeWhile_append_stop c hb hdot, List.drop_left]
    split
    case h_2 h =>
      exact (h _ rfl).elim
    case h_1 r4 heq2 =>
      have hr4 : r4 = c := by
        injection heq2 with _ h2
        exact h2.symm
      subst hr4
      simp only [List.all_eq_true, Bool.and_eq_true, decide_eq_true_eq]
      repeat' apply And.intro
      all_goals
        first
        | exact ha1 | exact ha2 | exact hb1 | exact hb2
        | exact hc | exact hc1 | exact hc2

theorem isLooseKey_of_core {s : Str} (h : isHeaderCore s = true) :
    isLooseKey s = true := by
  rcases isHeaderCore_decomp h with ⟨a, b, c, hs, ha, ha1, ha2, hb, hb1, hb2, hc, hc4⟩
  subst hs
  exact isLooseKey_build ha ha1 ha2 hb hb1 hb2 hc (by omega) (by omega)

theorem renderDate_loose {dt : JDate} (hm : dt.m < 100) (hd : dt.d < 100)
    (hy : dt.y < 10000) : isLooseKey (renderDate dt) = true := by
  unfold renderDate
  exact isLooseKey_build (natToDigits_all_digit _) (natToDigits_len_ge1 _)
    (natToDigits_len_le2 hm) (natToDigits_all_digit _) (natToDigits_len_ge1 _)
    (natToDigits_len_le2 hd) (natToDigits_all_digit _) (natToDigits_len_ge1 _)
    (natToDigits_len_le4 hy)

theorem fullDateMatch_props {s a b c : Str} (h : fullDateMatch s = some (a, b, c)) :
    (∀ x ∈ a, x.isDigit = true) ∧ 1 ≤ a.length ∧ a.length ≤ 2 ∧
    (∀ x ∈ b, x.isDigit = true) ∧ 1 ≤ b.length ∧ b.length ≤ 2 ∧
    (∀ x ∈ c, x.isDigit = true) ∧ c.length = 4 := by
  simp only [fullDateMatch] at h
  split at h
  · exact absurd h (by simp)
  · rename_i hlen1
    split at h
    · rename_i c1 r1 heq1
      split at h
      · exact absurd h (by simp)
      · split at h
        · exact absurd h (by simp)
        · rename_i hsep1 hlen2
          split at h
          · rename_i c2 r2 heq2
            split at h
            · exact absurd h (by simp)
            · split at h
              · rename_i hsep2 hlen3
                injection h with h1
                injection h1 with ha hbc
                injection hbc with hb hc
                subst ha hb hc
                refine ⟨fun x hx => List.mem_takeWhile_imp hx, by omega, by omega,
                  fun x hx => List.mem_takeWhile_imp hx, by omega, by omega,
                  all_of_digitRun_len (by omega), by omega⟩
              · exact absurd h (by simp)
          · exact absurd h (by simp)
    · exact absurd h (by simp)

theorem shortDateMatch_props {s a b : Str} (h : shortDateMatch s = some (a, b)) :
    (∀ x ∈ a, x.isDigit = true) ∧ 1 ≤ a.length ∧ a.length ≤ 2 ∧
    (∀ x ∈ b, x.isDigit = true) ∧ 1 ≤ b.length ∧ b.length ≤ 2 := by
  simp only [shortDateMatch] at h
  split at h
  · exact absurd h (by simp)
  · rename_i hlen1
    split at h
    · rename_i c1 r1 heq1
      split at h
      · exact absurd h (by simp)
      · split at h
        · exact absurd h (by simp)
        · rename_i hsep1 hlen2
          split at h
          · rename_i hfull
            injection h with h1
            injection h1 with ha hb
            subst ha hb
            exact ⟨fun x hx => List.mem_takeWhile_imp hx, by omega, by omega,
              fun x hx => List.mem_takeWhile_imp hx, by omega, by omega⟩
          · exact absurd h (by simp)
    · exact absurd h (by simp)

theorem yrOpt_props (R : Str) {ys : Str}
    (h : (if (R.takeWhile isWS).isEmpty then (none : Option Str)
          else if 4 ≤ ((R.drop (R.takeWhile isWS).length).takeWhile Char.isDigit).length
          then some (((R.drop (R.takeWhile isWS).length).takeWhile Char.isDigit).take 4)
          else none) = some ys) :
    (∀ x ∈ ys, x.isDigit = true) ∧ ys.length = 4 := by
  split at h
  · exact absurd h (by simp)
  · split at h
    · rename_i hsp2 hyg
      injection h with h4
      subst h4
      refine ⟨fun x hx => List.mem_takeWhile_imp ((List.take_sublist _ _).mem hx), ?_⟩
      rw [List.length_take]
      omega
    · exact absurd h (by simp)

theorem tryMonthAt_props {s : Str} {g dayS : Str} {yrS : Option Str}
    (h : tryMonthAt s = some (g, dayS, yrS)) :
    (∀ x ∈ dayS, x.isDigit = true) ∧ 1 ≤ dayS.length ∧ dayS.length ≤ 2 ∧
    (∀ ys, yrS = some ys → (∀ x ∈ ys, x.isDigit = true) ∧ ys.length = 4) := by
  simp only [tryMonthAt] at h
  split at h
  · exact absurd h (by simp)
  · rename_i hw
    split at h
    · exact absurd h (by simp)
    · rename_i hsp
      split at h
      · exact absurd h (by simp)
      · rename_i hdg
        injection h with h1
        injection h1 with hg h2
        injection h2 with hday hyr
        constructor
        · intro x hx
          rw [← hday] at hx
          exact List.mem_takeWhile_imp ((List.take_sublist _ _).mem hx)
        constructor
        · rw [← hday, List.length_take]
          have hne : (((s.drop (s.takeWhile isWordChar).length).drop
              ((s.drop (s.takeWhile isWordChar).length).takeWhile isWS).length).takeWhile
              Char.isDigit) ≠ [] := by
            intro hcon
            rw [hcon] at hdg
            exact hdg rfl
          have hpos := List.length_pos.mpr hne
          omega
        constructor
        · rw [← hday, List.length_take]
          omega
        · intro ys hys
          rw [← hyr] at hys
          exact yrOpt_props _ hys

theorem monthMatchLM_props :
    ∀ {s : Str} {g dayS : Str} {yrS : Option Str},
    monthMatchLM s = some (g, dayS, yrS) →
    (∀ x ∈ dayS, x.isDigit = true) ∧ 1 ≤ dayS.length ∧ dayS.length ≤ 2 ∧
    (∀ ys, yrS = some ys → (∀ x ∈ ys, x.isDigit = true) ∧ ys.length = 4) := by
  intro s
  induction s with
  | nil => intro g dayS yrS h; exact absurd h (by simp [monthMatchLM])
  | cons x cs ih =>
    intro g dayS yrS h
    rw [monthMatchLM] at h
    cases htry : tryMonthAt (x :: cs) with
    | some m =>
      rw [htry] at h
      injection h with h1
      subst h1
      exact tryMonthAt_props htry
    | none =>
      rw [htry] at h
      exact ih h

/-- C3 (amended): for a plausible current date, the normalizer returns
either `none` or a key of the loose shape `\d{1,2}\.\d{1,2}\.\d{1,4}` —
every path that produces a key produces 1–2-digit month and day fields and
a 1–4-digit year field (the month-name path can shrink a leading-zero year
below four digits; every other path yields the canonical 4-digit year). -/
theorem claim_C3_amended :
    ∀ (td : JDate) (s : Str), ValidToday td →
      normalizeDateFormat td s = none ∨
      ∃ k, normalizeDateFormat td s = some k ∧ isLooseKey k = true := by
  intro td s hvt
  obtain ⟨hvd, hy1, hy2⟩ := hvt
  obtain ⟨hm1, hm2, hd1, hd2, hyp⟩ := hvd
  have hdim := daysInMonth_bounds td.y td.m
  by_cases hh : isHeaderCore s = true
  · exact Or.inr ⟨s, by simp only [normalizeDateFormat, hh, if_true],
      isLooseKey_of_core hh⟩
  have hh' : isHeaderCore s = false := by simpa using hh
  cases hfd : fullDateMatch s with
  | some t =>
    obtain ⟨a, b, c⟩ := t
    obtain ⟨haD, ha1, ha2, hbD, hb1, hb2, hcD, hc4⟩ := fullDateMatch_props hfd
    have hpa : parseIntDigits a < 100 := by
      have := parseIntDigits_lt haD
      have h2 : (10 : Nat) ^ a.length ≤ 10 ^ 2 := Nat.pow_le_pow_right (by omega) ha2
      simpa using lt_of_lt_of_le this (by simpa using h2)
    have hpb : parseIntDigits b < 100 := by
      have := parseIntDigits_lt hbD
      have h2 : (10 : Nat) ^ b.length ≤ 10 ^ 2 := Nat.pow_le_pow_right (by omega) hb2
      simpa using lt_of_lt_of_le this (by simpa using h2)
    refine Or.inr ⟨natToDigits (parseIntDigits a) ++ '.' ::
      natToDigits (parseIntDigits b) ++ '.' :: c, ?_, ?_⟩
    · simp only [normalizeDateFormat, hh', Bool.false_eq_true, if_false, hfd]
    · exact isLooseKey_build (natToDigits_all_digit _) (natToDigits_len_ge1 _)
        (natToDigits_len_le2 hpa) (natToDigits_all_digit _) (natToDigits_len_ge1 _)
        (natToDigits_len_le2 hpb) hcD (by omega) (by omega)
  | none =>
  cases hsd : shortDateMatch s with
  | some t =>
    obtain ⟨a, b⟩ := t
    obtain ⟨haD, ha1, ha2, hbD, hb1, hb2⟩ := shortDateMatch_props hsd
    have hpa : parseIntDigits a < 100 := by
      have := parseIntDigits_lt haD
      have h2 : (10 : Nat) ^ a.length ≤ 10 ^ 2 := Nat.pow_le_pow_right (by omega) ha2
      simpa using lt_of_lt_of_le this (by simpa using h2)
    have hpb : parseIntDigits b < 100 := by
      have := parseIntDigits_lt hbD
      have h2 : (10 : Nat) ^ b.length ≤ 10 ^ 2 := Nat.pow_le_pow_right (by omega) hb2
      simpa using lt_of_lt_of_le this (by simpa using h2)
    have hy4 : (natToDigits td.y).length = 4 := natToDigits_len4 (by omega) (by omega)
    refine Or.inr ⟨natToDigits (parseIntDigits a) ++ '.' ::
      natToDigits (parseIntDigits b) ++ '.' :: natToDigits td.y, ?_, ?_⟩
    · simp only [normalizeDateFormat, hh', Bool.false_eq_true, if_false, hfd, hsd]
    · exact isLooseKey_build (natToDigits_all_digit _) (natToDigits_len_ge1 _)
        (natToDigits_len_le2 hpa) (natToDigits_all_digit _) (natToDigits_len_ge1 _)
        (natToDigits_len_le2 hpb) (natToDigits_all_digit _) (by omega) (by omega)
  | none =>
  by_cases hT : containsSub (("today").toList) (s.map Char.toLower) = true
  · refine Or.inr ⟨renderDate td, ?_, renderDate_loose (by omega) (by omega) (by omega)⟩
    simp only [normalizeDateFormat, hh', Bool.false_eq_true, if_false, hfd, hsd, hT,
      if_true]
  have hT' : containsSub (("today").toList) (s.map Char.toLower) = false := by simpa using hT
  by_cases hY : containsSub (("yesterday").toList) (s.map Char.toLower) = true
  · obtain ⟨hv1, hge1, hle1⟩ := subDays_valid ⟨hm1, hm2, hd1, hd2, hyp⟩ 1 (by omega)
    obtain ⟨hm1', hm2', hd1', hd2', hyp'⟩ := hv1
    have hdim' := daysInMonth_bounds (subDays td 1).y (subDays td 1).m
    refine Or.inr ⟨renderDate (subDays td 1), ?_,
      renderDate_loose (by omega) (by omega) (by omega)⟩
    simp only [normalizeDateFormat, hh', Bool.false_eq_true, if_false, hfd, hsd, hT',
      hY, if_true]
  have hY' : containsSub (("yesterday").toList) (s.map Char.toLower) = false := by
    simpa using hY
  cases hDM : dayNameMatch (s.map Char.toLower) with
  | some g =>
    cases hPI : prefixIdx g dayNamesL with
    | some i =>
      have hilt : i < 7 := by
        have := firstIdx_some_lt hPI
        simpa [dayNamesL] using this
      have hclt : getDayJS td < 7 := getDayJS_lt td
      set c := getDayJS td with hc
      set base := (if c ≤ i then c + 7 - i else c - i) with hbase
      have hbase13 : base ≤ 13 := by
        rw [hbase]
        split <;> omega
      set back := (if containsSub (("last").toList) (s.map Char.toLower)
        then base + 7 else base) with hback
      have hback20 : back ≤ 20 := by
        rw [hback]
        split <;> omega
      obtain ⟨hv1, hge1, hle1⟩ := subDays_valid ⟨hm1, hm2, hd1, hd2, hyp⟩ back (by omega)
      obtain ⟨hm1', hm2', hd1', hd2', hyp'⟩ := hv1
      have hdim' := daysInMonth_bounds (subDays td back).y (subDays td back).m
      refine Or.inr ⟨renderDate (subDays td back), ?_,
        renderDate_loose (by omega) (by omega) (by omega)⟩
      simp only [normalizeDateFormat, hh', Bool.false_eq_true, if_false, hfd, hsd, hT',
        hY', hDM, hPI, ← hc, ← hbase, ← hback]
    | none =>
      cases hMM : monthMatchLM (s.map Char.toLower) with
      | some t =>
        obtain ⟨g2, dayS, yrS⟩ := t
        cases hPM : prefixIdx g2 monthNamesL with
        | some mi =>
          obtain ⟨hdD, hda1, hda2, hyr⟩ := monthMatchLM_props hMM
          have hmilt : mi < 12 := by
            have := firstIdx_some_lt hPM
            simpa [monthNamesL] using this
          have hpd : parseIntDigits dayS < 100 := by
            have := parseIntDigits_lt hdD
            have h2 : (10 : Nat) ^ dayS.length ≤ 10 ^ 2 :=
              Nat.pow_le_pow_right (by omega) hda2
            simpa using lt_of_lt_of_le this (by simpa using h2)
          cases hyrS : yrS with
          | some ys =>
            obtain ⟨hysD, hys4⟩ := hyr ys hyrS
            have hpy : parseIntDigits ys < 10000 := by
              have := parseIntDigits_lt hysD
              rw [hys4] at this
              simpa using this
            refine Or.inr ⟨natToDigits (mi + 1) ++ '.' ::
              natToDigits (parseIntDigits dayS) ++ '.' ::
              natToDigits (parseIntDigits ys), ?_, ?_⟩
            · simp only [normalizeDateFormat, hh', Bool.false_eq_true, if_false, hfd,
                hsd, hT', hY', hDM, hPI, hMM, hPM, hyrS]
            · exact isLooseKey_build (natToDigits_all_digit _) (natToDigits_len_ge1 _)
                (natToDigits_len_le2 (by omega)) (natToDigits_all_digit _)
                (natToDigits_len_ge1 _) (natToDigits_len_le2 hpd)
                (natToDigits_all_digit _) (natToDigits_len_ge1 _)
                (natToDigits_len_le4 hpy)
          | none =>
            refine Or.inr ⟨natToDigits (mi + 1) ++ '.' ::
              natToDigits (parseIntDigits dayS) ++ '.' :: natToDigits td.y, ?_, ?_⟩
            · rw [hyrS] at hMM
              simp only [normalizeDateFormat, hh', Bool.false_eq_true, if_false, hfd,
                hsd, hT', hY', hDM, hPI, hMM, hPM]
            · have hy4 : (natToDigits td.y).length = 4 := natToDigits_len4 (by omega) (by omega)
              exact isLooseKey_build (natToDigits_all_digit _) (natToDigits_len_ge1 _)
                (natToDigits_len_le2 (by omega)) (natToDigits_all_digit _)
                (natToDigits_len_ge1 _) (natToDigits_len_le2 hpd)
                (natToDigits_all_digit _) (by omega) (by omega)
        | none =>
          refine Or.inl ?_
          simp only [normalizeDateFormat, hh', Bool.false_eq_true, if_false, hfd, hsd,
            hT', hY', hDM, hPI, hMM, hPM]
      | none =>
        refine Or.inl ?_
        simp only [normalizeDateFormat, hh', Bool.false_eq_true, if_false, hfd, hsd,
          hT', hY', hDM, hPI, hMM]
  | none =>
    cases hMM : monthMatchLM (s.map Char.toLower) with
    | some t =>
      obtain ⟨g2, dayS, yrS⟩ := t
      cases hPM : prefixIdx g2 monthNamesL with
      | some mi =>
        obtain ⟨hdD, hda1, hda2, hyr⟩ := monthMatchLM_props hMM
        have hmilt : mi < 12 := by
          have := firstIdx_some_lt hPM
          simpa [monthNamesL] using this
        have hpd : parseIntDigits dayS < 100 := by
          have := parseIntDigits_lt hdD
          have h2 : (10 : Nat) ^ dayS.length ≤ 10 ^ 2 :=
            Nat.pow_le_pow_right (by omega) hda2
          simpa using lt_of_lt_of_le this (by simpa using h2)
        cases hyrS : yrS with
        | some ys =>
          obtain ⟨hysD, hys4⟩ := hyr ys hyrS
          have hpy : parseIntDigits ys < 10000 := by
            have := parseIntDigits_lt hysD
            rw [hys4] at this
            simpa using this
          refine Or.inr ⟨natToDigits (mi + 1) ++ '.' ::
            natToDigits (parseIntDigits dayS) ++ '.' ::
            natToDigits (parseIntDigits ys), ?_, ?_⟩
          · simp only [normalizeDateFormat, hh', Bool.false_eq_true, if_false, hfd,
              hsd, hT', hY', hDM, hMM, hPM, hyrS]
          · exact isLooseKey_build (natToDigits_all_digit _) (natToDigits_len_ge1 _)
              (natToDigits_len_le2 (by omega)) (natToDigits_all_digit _)
              (natToDigits_len_ge1 _) (natToDigits_len_le2 hpd)
              (natToDigits_all_digit _) (natToDigits_len_ge1 _)
              (natToDigits_len_le4 hpy)
        | none =>
          refine Or.inr ⟨natToDigits (mi + 1) ++ '.' ::
            natToDigits (parseIntDigits dayS) ++ '.' :: natToDigits td.y, ?_, ?_⟩
          · rw [hyrS] at hMM
            simp only [normalizeDateFormat, hh', Bool.false_eq_true, if_false, hfd,
              hsd, hT', hY', hDM, hMM, hPM]
          · have hy4 : (natToDigits td.y).length = 4 := natToDigits_len4 (by omega) (by omega)
            exact isLooseKey_build (natToDigits_all_digit _) (natToDigits_len_ge1 _)
              (natToDigits_len_le2 (by omega)) (natToDigits_all_digit _)
              (natToDigits_len_ge1 _) (natToDigits_len_le2 hpd)
              (natToDigits_all_digit _) (by omega) (by omega)
      | none =>
        refine Or.inl ?_
        simp only [normalizeDateFormat, hh', Bool.false_eq_true, if_false, hfd, hsd,
          hT', hY', hDM, hMM, hPM]
    | none =>
      refine Or.inl ?_
      simp only [normalizeDateFormat, hh', Bool.false_eq_true, if_false, hfd, hsd,
        hT', hY', hDM, hMM]

/-- C3 counterexample: both halves of the claim fail.  "not today" matches
none of the seven grammars read literally, yet the `includes('today')` test
fires and the normalizer substitutes the current date.  "may 5 0125" DOES
match the month-name grammar (month word, day, 4-digit year "0125"), yet
`parseInt` strips the year's leading zero and the returned key "5.5.125"
does not match `^\d{1,2}\.\d{1,2}\.\d{4}$`. -/
theorem claim_C3_counterexample :
    (specSevenGrammars (("not today").toList) = false ∧
      normalizeDateFormat ⟨2025, 9, 21⟩ (("not today").toList) =
        some (renderDate ⟨2025, 9, 21⟩)) ∧
    (specSevenGrammars (("may 5 0125").toList) = true ∧
      normalizeDateFormat ⟨2025, 9, 21⟩ (("may 5 0125").toList) =
        some (("5.5.125").toList) ∧
      isHeaderCore (("5.5.125").toList) = false) :=
  ⟨⟨by decide, by decide⟩, ⟨by decide, by decide, by decide⟩⟩

/-- Witness for C3 (amended) at a concrete input: on 9.21.2025, "today"
normalizes, and the result is a loose key as the theorem asserts. -/
theorem claim_C3_witness :
    ValidToday ⟨2025, 9, 21⟩ ∧
    (normalizeDateFormat ⟨2025, 9, 21⟩ (("today").toList) = none ∨
      ∃ k, normalizeDateFormat ⟨2025, 9, 21⟩ (("today").toList) = some k ∧
        isLooseKey k = true) :=
  ⟨by decide, claim_C3_amended ⟨2025, 9, 21⟩ (("today").toList) (by decide)⟩
